import Mathlib

set_option maxRecDepth 8192

/-!
# Verification of the spreadsheet formula evaluation engine

Shallow embedding of `src/utils/spreadsheet.ts`: the address codec, numeric
coercion helpers, aggregate function evaluator, tokenizer, recursive-descent
expression evaluator and the formula entry point, together with proofs of the
specified properties.

Modelling conventions:
* JavaScript strings are Lean `String`s; character-level work happens on
  `String.data : List Char`.
* JavaScript numbers are modelled as exact rationals (`JNum`, an unreduced
  `Int` numerator / `Nat` denominator pair).  All numeric values the engine
  manipulates come from parsed decimal literals and field arithmetic on them,
  so the rational model is exact except for float rounding, which no verified
  property depends on.  `String(n)` is modelled by `numToString`, JavaScript
  `Number(s)` by `jsParseNumber`; hexadecimal/octal/binary literal forms of
  `Number` are not modelled.
* The source's recursion (cell evaluation and the recursive-descent parser)
  is embedded with a single structural fuel parameter, decremented at every
  recursive call; `evalBound` computes a sufficient fuel from the grid and
  formula, and fuel-sufficiency plus fuel-monotonicity are proved below.
* The source threads one mutable `visiting : Set<string>` through the
  recursion, adding the key `` `${row}:${col}` `` on entry and deleting it on
  every exit path, so a completed call restores the set exactly; the
  embedding therefore passes the visiting set functionally downward as a
  `List (Int × Int)` of keys.
-/

/-! ## Character and string helpers (JavaScript semantics) -/

/-- Characters removed by JavaScript `String.prototype.trim`: the WhiteSpace
production (TAB, VT, FF, SP, NBSP, BOM and the Unicode Zs class U+1680,
U+2000-U+200A, U+202F, U+205F, U+3000) plus the LineTerminator production
(LF, CR, LS U+2028, PS U+2029). -/
def isJsWs (c : Char) : Bool :=
  c.toNat == 9 || c.toNat == 10 || c.toNat == 11 || c.toNat == 12 ||
    c.toNat == 13 || c.toNat == 32 || c.toNat == 160 || c.toNat == 5760 ||
    (8192 ≤ c.toNat && c.toNat ≤ 8202) || c.toNat == 8232 || c.toNat == 8233 ||
    c.toNat == 8239 || c.toNat == 8287 || c.toNat == 12288 || c.toNat == 65279

/-- Model of JavaScript `s.trim()`. -/
def jsTrim (s : String) : String :=
  ⟨((s.data.dropWhile isJsWs).reverse.dropWhile isJsWs).reverse⟩

/-- ASCII-only model of JavaScript `toUpperCase` on one character. -/
def toUpperChar (c : Char) : Char :=
  if 97 ≤ c.toNat && c.toNat ≤ 122 then Char.ofNat (c.toNat - 32) else c

/-- Model of JavaScript `s.toUpperCase()` (ASCII range). -/
def jsToUpper (s : String) : String :=
  ⟨s.data.map toUpperChar⟩

/-- Decimal digit `0`-`9`. -/
def isDigitCh (c : Char) : Bool :=
  48 ≤ c.toNat && c.toNat ≤ 57

/-- Character class `[0-9.]` of the tokenizer's numeric runs. -/
def isDigitDot (c : Char) : Bool :=
  isDigitCh c || c == '.'

/-- Uppercase ASCII letter `A`-`Z`. -/
def isUpperAZ (c : Char) : Bool :=
  65 ≤ c.toNat && c.toNat ≤ 90

/-- Lowercase ASCII letter `a`-`z`. -/
def isLowerAZ (c : Char) : Bool :=
  97 ≤ c.toNat && c.toNat ≤ 122

/-- ASCII letter, either case (`[A-Za-z]`). -/
def isAsciiAlpha (c : Char) : Bool :=
  isUpperAZ c || isLowerAZ c

/-- ASCII letter or digit (`[A-Za-z0-9]`). -/
def isAlnumCh (c : Char) : Bool :=
  isAsciiAlpha c || isDigitCh c

/-- Accumulator-style worker for `splitOnChar`. -/
def splitOnCharAux (sep : Char) : List Char → List Char → List String
  | [], acc => [⟨acc.reverse⟩]
  | c :: cs, acc =>
    if c == sep then ⟨acc.reverse⟩ :: splitOnCharAux sep cs []
    else splitOnCharAux sep cs (c :: acc)

/-- Model of JavaScript `s.split(sep)` for a one-character separator: always
returns at least one piece, and `""` splits to `[""]`. -/
def splitOnChar (sep : Char) (s : String) : List String :=
  splitOnCharAux sep s.data []

/-- Value of a list of decimal digit characters (most significant first). -/
def digitsToNat (l : List Char) : Nat :=
  l.foldl (fun a c => a * 10 + (c.toNat - 48)) 0

/-- Fuelled worker producing the decimal digits of a natural number; fuel
`n + 1` always suffices since `n / 10 < n` for `n ≥ 10`. -/
def natToDigitsAux : Nat → Nat → List Char → List Char
  | 0, _, acc => acc
  | f + 1, n, acc =>
    if n < 10 then Char.ofNat (48 + n) :: acc
    else natToDigitsAux f (n / 10) (Char.ofNat (48 + n % 10) :: acc)

/-- Decimal digit characters of a natural number (`natToDigits 0 = ['0']`). -/
def natToDigits (n : Nat) : List Char :=
  natToDigitsAux (n + 1) n []

/-! ## Numbers: the `JNum` rational model of JavaScript numbers -/

/-- Exact rational model of a JavaScript number: an unreduced fraction with an
`Int` numerator and a `Nat` denominator.  Every `JNum` the engine constructs
has a positive denominator. -/
structure JNum where
  num : Int
  den : Nat
deriving DecidableEq

/-- The number `0`. -/
def jzero : JNum := ⟨0, 1⟩

/-- Embedding of a natural number. -/
def jofNat (n : Nat) : JNum := ⟨n, 1⟩

/-- Exact numerator/denominator form of the sum
(`a/b + c/d = (ad + cb)/(bd)`); `jaddS` below applies the IEEE-754 overflow
to `±Infinity` on top of it.  Rounding within the finite double range is not
modelled (declared convention): it never moves a value across the
numeric-vs-`Infinity` classification boundary this development proves. -/
def jadd (a b : JNum) : JNum :=
  ⟨a.num * b.den + b.num * a.den, a.den * b.den⟩

/-- Exact form of the difference; overflow is applied by `jsubS`. -/
def jsub (a b : JNum) : JNum :=
  ⟨a.num * b.den - b.num * a.den, a.den * b.den⟩

/-- Exact form of the product; overflow is applied by `jmulS`. -/
def jmul (a b : JNum) : JNum :=
  ⟨a.num * b.num, a.den * b.den⟩

/-- Negation. -/
def jneg (a : JNum) : JNum :=
  ⟨-a.num, a.den⟩

/-- Exact form of the quotient; overflow is applied by `jdivS`, and callers
guard the divisor against `0` first, as the source does (`b === 0` before
dividing). -/
def jdiv (a b : JNum) : JNum :=
  ⟨a.num * b.den * (if b.num < 0 then -1 else 1), a.den * b.num.natAbs⟩

/-- Comparison `a ≤ b` on rationals with nonnegative denominators. -/
def jle (a b : JNum) : Bool :=
  decide (a.num * (b.den : Int) ≤ b.num * (a.den : Int))

/-- Model of `Math.min` on two values. -/
def jmin (a b : JNum) : JNum :=
  if jle a b then a else b

/-- Model of `Math.max` on two values. -/
def jmax (a b : JNum) : JNum :=
  if jle a b then b else a

/-- The exact IEEE-754 binary64 overflow boundary `2^1024 - 2^970`: a real
value rounds to a finite double exactly when its magnitude is below it, and
to `±Infinity` (round-to-nearest, ties to even) at or above it. -/
def jsOverflow : Nat := 2 ^ 1024 - 2 ^ 970

/-- A JavaScript number as the engine's arithmetic can produce it: a finite
value (kept as an exact rational; rounding inside the finite range is not
modelled) or an overflowed infinity.  `NaN` needs no constructor: every
arithmetic site first checks `isNumeric` on both operands, and no operation
of the source maps finite operands to `NaN`. -/
inductive JVal where
  | fin (q : JNum)
  | inf
  | ninf
deriving DecidableEq

/-- IEEE-754 overflow of an exact result: magnitudes reaching `jsOverflow`
saturate to the corresponding infinity. -/
def satJS (q : JNum) : JVal :=
  if q.num.natAbs < jsOverflow * q.den then .fin q
  else if q.num < 0 then .ninf
  else .inf

/-- Double addition of finite values: exact sum, overflowed to infinity. -/
def jaddS (a b : JNum) : JVal := satJS (jadd a b)

/-- Double subtraction of finite values. -/
def jsubS (a b : JNum) : JVal := satJS (jsub a b)

/-- Double multiplication of finite values. -/
def jmulS (a b : JNum) : JVal := satJS (jmul a b)

/-- Double division of finite values (callers guard the divisor). -/
def jdivS (a b : JNum) : JVal := satJS (jdiv a b)

/-- One step of the source's `reduce((acc, v) => acc + v, 0)` over doubles:
once the accumulator has overflowed, adding a finite value leaves it
overflowed (`Infinity + x = Infinity`). -/
def jaddStep (acc : JVal) (v : JNum) : JVal :=
  match acc with
  | .fin a => jaddS a v
  | x => x

/-- `sum / count` of `AVG` on doubles: an infinite sum stays infinite under
division by the positive count. -/
def javgDiv (s : JVal) (n : Nat) : JVal :=
  match s with
  | .fin a => jdivS a (jofNat n)
  | x => x

/-- Hexadecimal digit `[0-9A-Fa-f]`. -/
def isHexDigit (c : Char) : Bool :=
  isDigitCh c || (65 ≤ c.toNat && c.toNat ≤ 70) || (97 ≤ c.toNat && c.toNat ≤ 102)

/-- Octal digit `[0-7]`. -/
def isOctDigit (c : Char) : Bool :=
  48 ≤ c.toNat && c.toNat ≤ 55

/-- Binary digit `[01]`. -/
def isBinDigit (c : Char) : Bool :=
  c.toNat == 48 || c.toNat == 49

/-- Value of one radix digit character (`0`-`9`, `A`-`F`, `a`-`f`). -/
def radixDigitVal (c : Char) : Nat :=
  if 97 ≤ c.toNat then c.toNat - 87
  else if 65 ≤ c.toNat then c.toNat - 55
  else c.toNat - 48

/-- Value of a digit string in the given base (most significant first). -/
def radixToNat (base : Nat) (l : List Char) : Nat :=
  l.foldl (fun a c => a * base + radixDigitVal c) 0

/-- One of `Number`'s `0x`/`0o`/`0b` integer forms after its two-character
prefix: a nonempty run of digits of the base, fully consumed. -/
def jsRadix (p : Char → Bool) (base : Nat) (ds : List Char) : Option JNum :=
  if !ds.isEmpty && ds.all p then some ⟨(radixToNat base ds : Nat), 1⟩ else none

/-- Decimal-literal part of JavaScript `Number(string)` on an already trimmed
character list: digits, optional fraction, optional exponent, requiring at
least one mantissa digit and full consumption.  This is the sign-stripped
decimal core; the `0x`/`0o`/`0b` radix forms are dispatched by
`jsParseNumber` before the sign is examined, since `Number` rejects a signed
radix form.  Returns `none` where `Number` yields `NaN` (and for the
`Infinity` forms, which parse to a non-finite value on which the engine's
`isNumeric` is `false` anyway). -/
def jsParseNumCore (cs : List Char) : Option JNum :=
  let intD := cs.takeWhile isDigitCh
  let cs2 := cs.dropWhile isDigitCh
  let frac : List Char × List Char :=
    match cs2 with
    | [] => ([], [])
    | c :: r => if c == '.' then (r.takeWhile isDigitCh, r.dropWhile isDigitCh) else ([], cs2)
  if intD.length + frac.1.length == 0 then none
  else
    let base : JNum := ⟨digitsToNat (intD ++ frac.1), 10 ^ frac.1.length⟩
    match frac.2 with
    | [] => some base
    | c :: r =>
      if c == 'e' || c == 'E' then
        let esgn : Bool × List Char :=
          match r with
          | [] => (false, [])
          | c2 :: r2 => if c2 == '+' then (false, r2) else if c2 == '-' then (true, r2)
                        else (false, r)
        let eD := esgn.2.takeWhile isDigitCh
        if eD.isEmpty || !(esgn.2.dropWhile isDigitCh).isEmpty then none
        else if esgn.1 then some ⟨base.num, base.den * 10 ^ digitsToNat eD⟩
        else some ⟨base.num * 10 ^ digitsToNat eD, base.den⟩
      else none

/-- JavaScript `Number(string)` on a trimmed character list: first the
`0x`/`0o`/`0b` integer forms (on which no sign is allowed), then an optional
leading sign over the decimal core; the sign scales the mantissa, so the
negative case negates the unsigned parse. -/
def jsParseNumber (cs : List Char) : Option JNum :=
  match cs with
  | [] => jsParseNumCore []
  | c :: r =>
    if c == '0' then
      match r with
      | [] => jsParseNumCore (c :: r)
      | c2 :: r2 =>
        if c2 == 'x' || c2 == 'X' then jsRadix isHexDigit 16 r2
        else if c2 == 'o' || c2 == 'O' then jsRadix isOctDigit 8 r2
        else if c2 == 'b' || c2 == 'B' then jsRadix isBinDigit 2 r2
        else jsParseNumCore (c :: r)
    else if c == '+' then jsParseNumCore r
    else if c == '-' then (jsParseNumCore r).map (fun q => ⟨-q.num, q.den⟩)
    else jsParseNumCore (c :: r)

/-- Model of JavaScript `Number(s)` restricted to call sites that already
checked `isNumeric`; `Number` itself trims whitespace. -/
def jsNumber (s : String) : JNum :=
  (jsParseNumber (jsTrim s).data).getD jzero

/-- Smallest `k ≤ 17` with `fr * 10 ^ k` divisible by `d`, or `17` if none
exists (the float-rounding regime, which no verified property exercises). -/
def findScaleAux (fr d : Nat) : Nat → Nat → Nat
  | k, 0 => k
  | k, left + 1 => if fr * 10 ^ k % d == 0 then k else findScaleAux fr d (k + 1) left

/-- Scale search entry point. -/
def findScale (fr d : Nat) : Nat :=
  findScaleAux fr d 0 17

/-- Drop trailing decimal zeros of a `k`-digit fraction block numerically. -/
def stripZerosAux : Nat → Nat → Nat × Nat
  | x, 0 => (x, 0)
  | x, k + 1 => if x % 10 == 0 then stripZerosAux (x / 10) k else (x, k + 1)

/-- Left-pad a digit block with `'0'` up to width `w`. -/
def padLeftZeros (l : List Char) (w : Nat) : List Char :=
  List.replicate (w - l.length) '0' ++ l

/-- Digits of the integer part, then a nonempty zero-padded fractional block
when the fractional digits are not all zero. -/
def numBodyCore (ip fd width : Nat) : List Char :=
  if fd == 0 then natToDigits ip
  else natToDigits ip ++ '.' :: padLeftZeros (natToDigits fd) width

/-- Model of JavaScript `String(n)` for the engine's finite numeric results:
sign, integer digits, and a fractional block without trailing zeros whenever
the value is not an integer; `jvalToString` below adds the
`Infinity`/`-Infinity` spellings.  Declared convention: the fraction is the
exact decimal expansion when it terminates within 17 digits and a 17-digit
rounding otherwise, where JS prints the shortest round-tripping digits of the
double and switches to exponent notation outside `[1e-6, 1e21)`; the digit
strings can differ, but both are parseable finite decimals, which is all the
classification theorems use. -/
def numToString (q : JNum) : String :=
  let n := q.num.natAbs
  let d := q.den
  let ip := n / d
  let fr := n % d
  let k := findScale fr d
  let exact := fr * 10 ^ k % d == 0
  let scaled := if exact then fr * 10 ^ k / d else (fr * 10 ^ 17 + d / 2) / d
  let fk := stripZerosAux scaled (if exact then k else 17)
  if q.num < 0 then ⟨'-' :: numBodyCore ip fk.1 fk.2⟩ else ⟨numBodyCore ip fk.1 fk.2⟩

/-- Model of JavaScript `String(n)` including the non-finite spellings. -/
def jvalToString : JVal → String
  | .fin q => numToString q
  | .inf => "Infinity"
  | .ninf => "-Infinity"

/-! ## Numeric coercion helpers of the source -/

/-- Model of the source's `isNumeric`: trim, reject the empty string, then
test whether JavaScript `Number` yields a finite value — the parse must
succeed and the parsed magnitude must round below the overflow boundary. -/
def isNumeric (s : String) : Bool :=
  let t := jsTrim s
  !t.data.isEmpty &&
    match jsParseNumber t.data with
    | none => false
    | some q => decide (q.num.natAbs < jsOverflow * q.den)

/-- Model of the source's `stripCurrencyFormatting`: trim, and delete every
`$` and `,` character. -/
def stripCurrencyFormatting (s : String) : String :=
  let t := jsTrim s
  if t.data.isEmpty then "" else ⟨t.data.filter (fun c => !(c == '$' || c == ','))⟩

/-! ## Address codec -/

/-- Fuelled worker for `getColumnLabel`; `temp` strictly decreases, so fuel
`index + 1` always suffices. -/
def getColumnLabelAux : Nat → Nat → List Char → List Char
  | 0, _, acc => acc
  | f + 1, temp, acc =>
    if temp == 0 then acc
    else getColumnLabelAux f ((temp - 1) / 26) (Char.ofNat (65 + (temp - 1) % 26) :: acc)

/-- Model of the source's `getColumnLabel`: bijective base-26 column label
(`0 ↦ "A"`, `25 ↦ "Z"`, `26 ↦ "AA"`). -/
def getColumnLabel (index : Nat) : String :=
  ⟨getColumnLabelAux (index + 1) (index + 1) []⟩

/-- Model of the regex `/^([A-Z]+)([1-9][0-9]*)$/`: on success, the letter
part and the digit part. -/
def addrMatch (cs : List Char) : Option (List Char × List Char) :=
  let letters := cs.takeWhile isUpperAZ
  let rest := cs.dropWhile isUpperAZ
  if letters.isEmpty then none
  else
    match rest with
    | d :: ds =>
      if (49 ≤ d.toNat && d.toNat ≤ 57) && ds.all isDigitCh then some (letters, d :: ds)
      else none
    | [] => none

/-- Model of the source's `parseCellAddress` (its `maxRows`/`maxCols`
parameters default to `10` in the source; callers here always pass them
explicitly).  The source's `rowIndex < 0 || colIndex < 0` checks cannot fire
because the regex guarantees at least one letter and a nonzero row number, so
the `Nat`-valued model omits them. -/
def parseCellAddress (label : String) (maxRows maxCols : Nat) : Option (Nat × Nat) :=
  let trimmed := jsToUpper (jsTrim label)
  match addrMatch trimmed.data with
  | none => none
  | some (colPart, rowPart) =>
    let colIndex := colPart.foldl (fun acc ch => acc * 26 + (ch.toNat - 64)) 0 - 1
    let rowIndex := digitsToNat rowPart - 1
    if rowIndex ≥ maxRows || colIndex ≥ maxCols then none
    else some (rowIndex, colIndex)

/-- Model of the source's `getCellLabel`. -/
def getCellLabel (row col : Nat) : String :=
  getColumnLabel col ++ ⟨natToDigits (row + 1)⟩

/-- Model of the source's `parseRange`: split on `:`, require the first two
pieces nonempty and both parseable, then enumerate the normalized rectangle
row-major. -/
def parseRange (range : String) (maxRows maxCols : Nat) : List (Nat × Nat) :=
  match splitOnChar ':' range with
  | p0 :: p1 :: _ =>
    if p0.data.isEmpty || p1.data.isEmpty then []
    else
      match parseCellAddress p0 maxRows maxCols, parseCellAddress p1 maxRows maxCols with
      | some s, some e =>
        let r0 := min s.1 e.1
        let r1 := max s.1 e.1
        let c0 := min s.2 e.2
        let c1 := max s.2 e.2
        (List.range (r1 - r0 + 1)).flatMap fun dr =>
          (List.range (c1 - c0 + 1)).map fun dc => (r0 + dr, c0 + dc)
      | _, _ => []
  | _ => []

/-! ## Grid access and shared predicates -/

/-- The grid: row-major raw cell strings. -/
abbrev Grid := List (List String)

/-- Model of the source's `isErrorValue`: the string starts with `#`. -/
def isErrorValue (s : String) : Bool :=
  match s.data with
  | '#' :: _ => true
  | _ => false

/-- Model of `CELL_REF_REGEX = /^[A-Z]+[1-9][0-9]*$/i` (test only). -/
def cellRefTest (t : String) : Bool :=
  let letters := t.data.takeWhile isAsciiAlpha
  let rest := t.data.dropWhile isAsciiAlpha
  !letters.isEmpty &&
    match rest with
    | d :: ds => (49 ≤ d.toNat && d.toNat ≤ 57) && ds.all isDigitCh
    | [] => false

/-- Model of the source's `getCellRawValue`: bounds-check the row against the
grid and the column against the first row's width, else read the cell (the
source's `row < 0 || col < 0` checks are vacuous in the `Nat` model). -/
def getCellRawValue (grid : Grid) (row col : Nat) : String :=
  if row ≥ grid.length then "#ERROR:REF"
  else if col ≥ (grid.headD []).length then "#ERROR:REF"
  else (grid.getD row []).getD col ""

/-! ## Aggregate function evaluator -/

/-- Accumulator of `evaluateFunction`: the numeric accumulation list and the
non-empty count. -/
abbrev FuncState := List JNum × Nat

/-- Model of the source's `pushFromCoord` closure: resolve the raw cell value,
count it when non-empty, and accumulate it when its stripped form is numeric. -/
def pushFromCoord (grid : Grid) (st : FuncState) (row col : Nat) : FuncState :=
  let raw := getCellRawValue grid row col
  let stripped := stripCurrencyFormatting raw
  let st1 := if raw ≠ "" then (st.1, st.2 + 1) else st
  if isNumeric stripped then (st1.1 ++ [jsNumber stripped], st1.2) else st1

/-- Model of the source's `processArg` closure: skip blank arguments, expand
ranges, resolve single references (silently skipping unparseable ones), and
otherwise treat the argument as a literal. -/
def processArg (grid : Grid) (maxRows maxCols : Nat) (st : FuncState) (arg : String) :
    FuncState :=
  let trimmed := jsTrim arg
  if trimmed.data.isEmpty then st
  else if trimmed.data.contains ':' then
    (parseRange trimmed maxRows maxCols).foldl
      (fun s coord => pushFromCoord grid s coord.1 coord.2) st
  else if cellRefTest trimmed then
    match parseCellAddress trimmed maxRows maxCols with
    | none => st
    | some (r, c) => pushFromCoord grid st r c
  else
    let stripped := stripCurrencyFormatting trimmed
    let st1 := if stripped ≠ "" then (st.1, st.2 + 1) else st
    if isNumeric stripped then (st1.1 ++ [jsNumber stripped], st1.2) else st1

/-- Model of the source's `evaluateFunction`: process the arguments, then
dispatch on the upper-cased name. -/
def evaluateFunction (name : String) (args : List String) (grid : Grid) : String :=
  let upperName := jsToUpper (jsTrim name)
  let maxRows := grid.length
  let maxCols := (grid.headD []).length
  let st := args.foldl (processArg grid maxRows maxCols) ([], 0)
  if upperName = "SUM" then
    if args.length == 0 then "#ERROR:ARGS"
    else jvalToString (st.1.foldl jaddStep (JVal.fin jzero))
  else if upperName = "AVG" then
    if args.length == 0 then "#ERROR:ARGS"
    else if st.1.length == 0 then "0"
    else jvalToString (javgDiv (st.1.foldl jaddStep (JVal.fin jzero)) st.1.length)
  else if upperName = "MIN" then
    if args.length == 0 then "#ERROR:ARGS"
    else
      match st.1 with
      | [] => "0"
      | v :: vs => numToString (vs.foldl jmin v)
  else if upperName = "MAX" then
    if args.length == 0 then "#ERROR:ARGS"
    else
      match st.1 with
      | [] => "0"
      | v :: vs => numToString (vs.foldl jmax v)
  else if upperName = "COUNT" then
    if args.length == 0 then "#ERROR:ARGS"
    else numToString (jofNat st.2)
  else "#ERROR:FUNC"

/-! ## Formula entry point helpers -/

/-- Model of `formula.replace(/^=/, '')`: remove one leading `=` if present. -/
def stripLeadingEq (s : String) : String :=
  match s.data with
  | '=' :: rest => ⟨rest⟩
  | _ => s

/-- Model of the entry point's `/^([A-Z]+)\((.*)\)$/` match: a nonempty
uppercase name prefix, immediately a `(`, a final `)`, and a middle span in
which `.` matches (so no line terminators).  Backtracking cannot produce any
other decomposition because every shorter name prefix is followed by an
uppercase letter rather than `(`. -/
def funcMatch (expr : String) : Option (String × String) :=
  let cs := expr.data
  let up := cs.takeWhile isUpperAZ
  let rest := cs.dropWhile isUpperAZ
  if up.isEmpty then none
  else
    match rest with
    | '(' :: body =>
      match body.getLast? with
      | some ')' =>
        let mid := body.dropLast
        if mid.all (fun c => !(c == '\n' || c == '\r')) then some (⟨up⟩, ⟨mid⟩)
        else none
      | _ => none
    | _ => none

/-- Fuelled tokenizer worker; every step consumes at least one character, so
fuel `length + 1` always suffices.  Skips space/tab/newline, emits
single-character operator and parenthesis tokens, maximal `[0-9.]` runs, and
upper-cased maximal letter-then-alphanumeric identifier runs; any other
character fails the tokenization (the caller turns `none` into `#ERROR`). -/
def tokenizeAux : Nat → List Char → Option (List String)
  | 0, _ => none
  | _ + 1, [] => some []
  | f + 1, c :: rest =>
    if c == ' ' || c == '\t' || c == '\n' then tokenizeAux f rest
    else if c == '(' || c == ')' || c == '+' || c == '-' || c == '*' || c == '/' then
      (tokenizeAux f rest).map (fun ts => String.mk [c] :: ts)
    else if isDigitDot c then
      (tokenizeAux f (rest.dropWhile isDigitDot)).map
        (fun ts => String.mk (c :: rest.takeWhile isDigitDot) :: ts)
    else if isAsciiAlpha c then
      (tokenizeAux f (rest.dropWhile isAlnumCh)).map
        (fun ts => String.mk ((c :: rest.takeWhile isAlnumCh).map toUpperChar) :: ts)
    else none

/-- The source's token scan over the expression body. -/
def tokenize (cs : List Char) : Option (List String) :=
  tokenizeAux (cs.length + 1) cs

/-- Model of the function-call argument scan in `parsePrimary`: consume tokens
while tracking parenthesis depth, collecting every token strictly inside the
call; stops on the matching `)` or when the tokens run out. -/
def collectArgs : List String → Nat → List String × List String
  | [], _ => ([], [])
  | tk :: rest, depth =>
    let depth2 := if tk = "(" then depth + 1 else if tk = ")" then depth - 1 else depth
    if depth2 == 0 then ([], rest)
    else
      let p := collectArgs rest depth2
      (tk :: p.1, p.2)

/-- Model of the source's `applyOp`: propagate error sentinels (left first),
require both operands numeric, then apply the operator, with a divisor of
zero mapped to `#ERROR:DIV0`. -/
def applyOp (left right op : String) : String :=
  if isErrorValue left then left
  else if isErrorValue right then right
  else if !isNumeric left || !isNumeric right then "#ERROR:VALUE"
  else
    let a := jsNumber left
    let b := jsNumber right
    if op = "+" then jvalToString (jaddS a b)
    else if op = "-" then jvalToString (jsubS a b)
    else if op = "*" then jvalToString (jmulS a b)
    else if op = "/" then
      if b.num == 0 then "#ERROR:DIV0" else jvalToString (jdivS a b)
    else "#ERROR"

/-! ## The fuelled evaluator

One structural fuel parameter is threaded through the mutual recursion
(`evaluateFormula` recursing through cell references, and the
recursive-descent parser closures `parseExpression`/`parseTerm`/`parseUnary`/
`parsePrimary`, whose `while` loops become the `...LoopF` workers).  Fuel `0`
yields `none`; `evalBound` below always suffices. -/

mutual

/-- Model of the source's `evaluateFormula` body given the evaluation context
(the visiting set); the key `(row, col)` models the source's string key
`` `${row}:${col}` ``. -/
def evalFormulaFuel : Nat → String → Grid → Int → Int → List (Int × Int) → Option String
  | 0, _, _, _, _, _ => none
  | f + 1, formula, grid, row, col, visiting =>
    if decide ((row, col) ∈ visiting) then some "#CYCLE"
    else
      let expr := jsTrim (stripLeadingEq (jsTrim formula))
      if expr.data.isEmpty then some ""
      else if jsToUpper expr = "BURNRATE()" then some ""
      else
        match funcMatch expr with
        | some nb => some (evaluateFunction nb.1 (splitOnChar ',' nb.2) grid)
        | none =>
          match tokenize expr.data with
          | none => some "#ERROR"
          | some tokens => (parseExpressionF f grid ((row, col) :: visiting) tokens).1

/-- `parseExpression`: a term, then the `+`/`-` loop. -/
def parseExpressionF : Nat → Grid → List (Int × Int) → List String →
    Option String × List String
  | 0, _, _, toks => (none, toks)
  | f + 1, grid, vis, toks =>
    let p := parseTermF f grid vis toks
    match p.1 with
    | none => (none, p.2)
    | some lv => parseExpLoopF f grid vis lv p.2

/-- The `while (peek is + or -)` loop of `parseExpression`. -/
def parseExpLoopF : Nat → Grid → List (Int × Int) → String → List String →
    Option String × List String
  | 0, _, _, _, toks => (none, toks)
  | f + 1, grid, vis, left, toks =>
    match toks with
    | op :: rest =>
      if op = "+" || op = "-" then
        let p := parseTermF f grid vis rest
        match p.1 with
        | none => (none, p.2)
        | some rv => parseExpLoopF f grid vis (applyOp left rv op) p.2
      else (some left, toks)
    | [] => (some left, toks)

/-- `parseTerm`: a unary, then the `*`/`/` loop. -/
def parseTermF : Nat → Grid → List (Int × Int) → List String →
    Option String × List String
  | 0, _, _, toks => (none, toks)
  | f + 1, grid, vis, toks =>
    let p := parseUnaryF f grid vis toks
    match p.1 with
    | none => (none, p.2)
    | some lv => parseTermLoopF f grid vis lv p.2

/-- The `while (peek is * or /)` loop of `parseTerm`. -/
def parseTermLoopF : Nat → Grid → List (Int × Int) → String → List String →
    Option String × List String
  | 0, _, _, _, toks => (none, toks)
  | f + 1, grid, vis, left, toks =>
    match toks with
    | op :: rest =>
      if op = "*" || op = "/" then
        let p := parseUnaryF f grid vis rest
        match p.1 with
        | none => (none, p.2)
        | some rv => parseTermLoopF f grid vis (applyOp left rv op) p.2
      else (some left, toks)
    | [] => (some left, toks)

/-- `parseUnary`: an optional sign applied to a numeric operand (the source
re-stringifies through `Number`, so `+"007"` normalizes to `"7"`), else a
primary. -/
def parseUnaryF : Nat → Grid → List (Int × Int) → List String →
    Option String × List String
  | 0, _, _, toks => (none, toks)
  | f + 1, grid, vis, toks =>
    match toks with
    | op :: rest =>
      if op = "+" || op = "-" then
        let p := parseUnaryF f grid vis rest
        match p.1 with
        | none => (none, p.2)
        | some v =>
          if !isNumeric v then (some "#ERROR:VALUE", p.2)
          else if op = "-" then (some (numToString (jneg (jsNumber v))), p.2)
          else (some (numToString (jsNumber v)), p.2)
      else parsePrimaryF f grid vis toks
    | [] => parsePrimaryF f grid vis toks

/-- `parsePrimary`: parenthesized expression, cell reference (recursing into
the referenced cell's formula with the shared visiting set), function call,
or numeric literal token.  An exhausted token stream falls through the
source's `undefined` checks to `#ERROR`. -/
def parsePrimaryF : Nat → Grid → List (Int × Int) → List String →
    Option String × List String
  | 0, _, _, toks => (none, toks)
  | f + 1, grid, vis, toks =>
    match toks with
    | [] => (some "#ERROR", [])
    | t :: rest =>
      if t = "(" then
        let p := parseExpressionF f grid vis rest
        match p.1 with
        | none => (none, p.2)
        | some v =>
          if p.2.head? = some ")" then (some v, p.2.tail)
          else (some "#ERROR", p.2)
      else if cellRefTest t then
        match parseCellAddress t grid.length (grid.headD []).length with
        | none => (some "#ERROR:REF", rest)
        | some rc =>
          let raw := getCellRawValue grid rc.1 rc.2
          if (jsTrim raw).data.head? = some '=' then
            match evalFormulaFuel f raw grid rc.1 rc.2 vis with
            | none => (none, rest)
            | some v => (some v, rest)
          else (some raw, rest)
      else if !t.data.isEmpty && t.data.all isUpperAZ then
        if rest.head? = some "(" then
          let ca := collectArgs rest.tail 1
          (some (evaluateFunction t (splitOnChar ',' (String.join ca.1)) grid), ca.2)
        else (some "#ERROR", rest)
      else if isDigitDot (t.data.headD ' ') then (some t, rest)
      else (some "#ERROR", toks)

end

/-! ## Sufficient fuel and the public entry point -/

/-- All in-bounds coordinate keys of the grid (row-major). -/
def keyList (grid : Grid) : List (Int × Int) :=
  (List.range grid.length ×ˢ List.range (grid.headD []).length).map
    fun p => ((p.1 : Int), (p.2 : Int))

/-- Fuel budget one cell can consume before recursing further. -/
def cellWeight (grid : Grid) (k : Int × Int) : Nat :=
  8 * (getCellRawValue grid k.1.toNat k.2.toNat).length + 16

/-- Fuel budget of all grid cells not currently on the visiting stack. -/
def budget (grid : Grid) (vis : List (Int × Int)) : Nat :=
  (((keyList grid).filter (fun k => decide (k ∉ vis))).map (cellWeight grid)).sum

/-- A fuel amount sufficient for any evaluation over this formula and grid
(proved below); the public wrapper uses it. -/
def evalBound (formula : String) (grid : Grid) : Nat :=
  budget grid [] + (8 * formula.length + 24)

/-- The public `evaluateFormula(formula, grid, row, col)` entry point: a fresh
evaluation context (empty visiting set) and sufficient fuel.  The `"#DEPTH"`
default is dead code once fuel sufficiency is proved. -/
def evaluateFormula (formula : String) (grid : Grid) (row col : Int) : String :=
  (evalFormulaFuel (evalBound formula grid) formula grid row col []).getD "#DEPTH"

/-! ## Auxiliary predicates for the statements and proofs -/

/-- Shape of a token the tokenizer can emit: an operator or parenthesis, a
nonempty `[0-9.]` run, or an upper-cased identifier (uppercase letter head,
uppercase-or-digit tail). -/
def tokOK (t : String) : Bool :=
  (t = "(" || t = ")" || t = "+" || t = "-" || t = "*" || t = "/") ||
    (!t.data.isEmpty && t.data.all isDigitDot) ||
    (match t.data with
     | c :: cs => isUpperAZ c && cs.all (fun x => isUpperAZ x || isDigitCh x)
     | [] => false)

/-- Every token in the stream is well-shaped. -/
def TokWF (toks : List String) : Prop :=
  ∀ t ∈ toks, tokOK t = true

/-- The string starts with `#` (an error sentinel). -/
def startsHash (s : String) : Bool :=
  match s.data with
  | '#' :: _ => true
  | _ => false

/-- The invariant of every finite number the engine constructs: a positive
denominator and a magnitude below the IEEE-754 overflow boundary. -/
def JOK (q : JNum) : Prop :=
  0 < q.den ∧ q.num.natAbs < jsOverflow * q.den

/-- Classification of every string the arithmetic core (`applyOp` and
`evaluateFunction`) can return: numeric text, an error sentinel, an all-digits
count, or an overflowed infinity. -/
def ValShape (s : String) : Prop :=
  isNumeric s = true ∨ startsHash s = true ∨
    (s.data ≠ [] ∧ s.data.all isDigitDot = true) ∨
    s = "Infinity" ∨ s = "-Infinity"

/-- Classification of every string the evaluator can return: numeric text, an
error sentinel, the empty string, a digits-and-dots literal token returned
verbatim, the verbatim raw value of an in-bounds grid cell, or an overflowed
infinity. -/
def ResultShape (grid : Grid) (s : String) : Prop :=
  isNumeric s = true ∨ startsHash s = true ∨ s = "" ∨
    (s.data ≠ [] ∧ s.data.all isDigitDot = true) ∨
    (∃ r c, r < grid.length ∧ c < (grid.headD []).length ∧ s = (grid.getD r []).getD c "") ∨
    s = "Infinity" ∨ s = "-Infinity"

/-- The grid contract of the public interface: every row as wide as the
first. -/
def RectGrid (grid : Grid) : Prop :=
  ∀ row ∈ grid, row.length = (grid.headD []).length

/-! ## Helper lemmas: characters, trimming, tokens -/

theorem charOfNat_toNat {n : Nat} (h : n < 55296) : (Char.ofNat n).toNat = n := by
  unfold Char.ofNat
  rw [dif_pos (Or.inl h)]
  rfl

theorem splitOnCharAux_ne_nil (sep : Char) :
    ∀ cs acc, splitOnCharAux sep cs acc ≠ [] := by
  intro cs
  induction cs with
  | nil => intro acc; simp [splitOnCharAux]
  | cons c cs ih =>
    intro acc
    simp only [splitOnCharAux]
    split
    · simp
    · exact ih (c :: acc)

theorem splitOnChar_ne_nil (sep : Char) (s : String) : splitOnChar sep s ≠ [] :=
  splitOnCharAux_ne_nil sep s.data []

theorem jsTrim_length (s : String) : (jsTrim s).length ≤ s.length := by
  have h1 : (s.data.dropWhile isJsWs).length ≤ s.data.length :=
    (List.dropWhile_sublist _).length_le
  have h2 : ((s.data.dropWhile isJsWs).reverse.dropWhile isJsWs).length ≤
      (s.data.dropWhile isJsWs).reverse.length :=
    (List.dropWhile_sublist _).length_le
  simp only [jsTrim, String.length, List.length_reverse] at *
  omega

theorem stripLeadingEq_length (s : String) : (stripLeadingEq s).length ≤ s.length := by
  unfold stripLeadingEq
  split
  · next rest heq =>
    have := congrArg List.length heq
    simp only [String.length, List.length_cons] at *
    omega
  · exact Nat.le_refl _

theorem exprOf_length (F : String) :
    (jsTrim (stripLeadingEq (jsTrim F))).length ≤ F.length :=
  Nat.le_trans (jsTrim_length _) (Nat.le_trans (stripLeadingEq_length _) (jsTrim_length _))

theorem tokenizeAux_length :
    ∀ fuel cs ts, tokenizeAux fuel cs = some ts → ts.length ≤ cs.length := by
  intro fuel
  induction fuel with
  | zero => intro cs ts h; simp [tokenizeAux] at h
  | succ f ih =>
    intro cs ts h
    cases cs with
    | nil =>
      simp only [tokenizeAux, Option.some.injEq] at h
      simp [← h]
    | cons c rest =>
      simp only [tokenizeAux] at h
      split at h
      · exact Nat.le_trans (ih rest ts h) (by simp)
      · split at h
        · rcases Option.map_eq_some'.mp h with ⟨ts2, htk, rfl⟩
          have := ih rest ts2 htk
          simp only [List.length_cons]
          omega
        · split at h
          · rcases Option.map_eq_some'.mp h with ⟨ts2, htk, rfl⟩
            have h1 := ih _ ts2 htk
            have h2 : (rest.dropWhile isDigitDot).length ≤ rest.length :=
              (List.dropWhile_sublist _).length_le
            simp only [List.length_cons]
            omega
          · split at h
            · rcases Option.map_eq_some'.mp h with ⟨ts2, htk, rfl⟩
              have h1 := ih _ ts2 htk
              have h2 : (rest.dropWhile isAlnumCh).length ≤ rest.length :=
                (List.dropWhile_sublist _).length_le
              simp only [List.length_cons]
              omega
            · simp at h

theorem tokenize_length {cs : List Char} {ts : List String} (h : tokenize cs = some ts) :
    ts.length ≤ cs.length :=
  tokenizeAux_length _ _ _ h

theorem toUpperChar_of_upper {c : Char} (h : isUpperAZ c = true) : toUpperChar c = c := by
  simp only [isUpperAZ, Bool.and_eq_true, decide_eq_true_eq] at h
  simp only [toUpperChar]
  rw [if_neg]
  simp only [Bool.and_eq_true, decide_eq_true_eq]
  omega

theorem toUpperChar_of_lower {c : Char} (h : isLowerAZ c = true) :
    (toUpperChar c).toNat = c.toNat - 32 := by
  simp only [isLowerAZ, Bool.and_eq_true, decide_eq_true_eq] at h
  simp only [toUpperChar]
  rw [if_pos, charOfNat_toNat]
  · omega
  · simp only [Bool.and_eq_true, decide_eq_true_eq]
    omega

theorem toUpperChar_alpha {c : Char} (h : isAsciiAlpha c = true) :
    isUpperAZ (toUpperChar c) = true := by
  simp only [isAsciiAlpha, Bool.or_eq_true] at h
  rcases h with h | h
  · rw [toUpperChar_of_upper h]; exact h
  · have hl := toUpperChar_of_lower h
    simp only [isLowerAZ, Bool.and_eq_true, decide_eq_true_eq] at h
    simp only [isUpperAZ, Bool.and_eq_true, decide_eq_true_eq]
    omega

theorem toUpperChar_alnum {c : Char} (h : isAlnumCh c = true) :
    (isUpperAZ (toUpperChar c) || isDigitCh (toUpperChar c)) = true := by
  simp only [isAlnumCh, Bool.or_eq_true] at h
  rcases h with h | h
  · simp [toUpperChar_alpha h]
  · have hd := h
    simp only [isDigitCh, Bool.and_eq_true, decide_eq_true_eq] at h
    have : toUpperChar c = c := by
      simp only [toUpperChar]
      rw [if_neg]
      simp only [Bool.and_eq_true, decide_eq_true_eq]
      omega
    rw [this]
    simp [hd]

theorem tokOK_digitRun {c : Char} {l : List Char} (hc : isDigitDot c = true)
    (hl : ∀ x ∈ l, isDigitDot x = true) : tokOK ⟨c :: l⟩ = true := by
  simp only [tokOK, Bool.or_eq_true]
  refine Or.inl (Or.inr ?_)
  simp only [Bool.and_eq_true, Bool.not_eq_true', List.all_eq_true]
  refine ⟨rfl, ?_⟩
  intro x hx
  rcases List.mem_cons.mp hx with rfl | h2
  · exact hc
  · exact hl x h2

theorem tokOK_ident {c : Char} {l : List Char} (hc : isUpperAZ c = true)
    (hl : ∀ x ∈ l, (isUpperAZ x || isDigitCh x) = true) : tokOK ⟨c :: l⟩ = true := by
  simp only [tokOK, Bool.or_eq_true]
  refine Or.inr ?_
  simp only [Bool.and_eq_true, List.all_eq_true]
  exact ⟨hc, hl⟩

theorem tokenizeAux_wf :
    ∀ fuel cs ts, tokenizeAux fuel cs = some ts → ∀ t ∈ ts, tokOK t = true := by
  intro fuel
  induction fuel with
  | zero => intro cs ts h; simp [tokenizeAux] at h
  | succ f ih =>
    intro cs ts h
    cases cs with
    | nil =>
      simp only [tokenizeAux, Option.some.injEq] at h
      simp [← h]
    | cons c rest =>
      simp only [tokenizeAux] at h
      split at h
      · exact ih rest ts h
      · split at h
        · rcases Option.map_eq_some'.mp h with ⟨ts2, htk, rfl⟩
          intro t ht
          rcases List.mem_cons.mp ht with rfl | ht2
          · rename_i hws hop
            simp only [Bool.or_eq_true, beq_iff_eq] at hop
            rcases hop with ((((rfl | rfl) | rfl) | rfl) | rfl) | rfl <;> decide
          · exact ih rest ts2 htk t ht2
        · split at h
          · rcases Option.map_eq_some'.mp h with ⟨ts2, htk, rfl⟩
            intro t ht
            rcases List.mem_cons.mp ht with rfl | ht2
            · rename_i hdd
              exact tokOK_digitRun hdd (fun x hx => List.mem_takeWhile_imp hx)
            · exact ih _ ts2 htk t ht2
          · split at h
            · rcases Option.map_eq_some'.mp h with ⟨ts2, htk, rfl⟩
              intro t ht
              rcases List.mem_cons.mp ht with rfl | ht2
              · rename_i halpha
                simp only [List.map_cons]
                refine tokOK_ident (toUpperChar_alpha halpha) ?_
                intro x hx
                rcases List.mem_map.mp hx with ⟨y, hy, rfl⟩
                exact toUpperChar_alnum (List.mem_takeWhile_imp hy)
              · exact ih _ ts2 htk t ht2
            · simp at h

theorem tokenize_wf {cs : List Char} {ts : List String} (h : tokenize cs = some ts) :
    TokWF ts :=
  tokenizeAux_wf _ _ _ h

/-! ## Helper lemmas: decimal digit strings and `isNumeric ∘ numToString` -/

theorem natToDigitsAux_digits :
    ∀ fuel n acc, (∀ c ∈ acc, isDigitCh c = true) →
      ∀ c ∈ natToDigitsAux fuel n acc, isDigitCh c = true := by
  intro fuel
  induction fuel with
  | zero => intro n acc hacc; simpa [natToDigitsAux] using hacc
  | succ f ih =>
    intro n acc hacc
    simp only [natToDigitsAux]
    split
    · intro c hc
      rcases List.mem_cons.mp hc with rfl | h2
      · rename_i hn
        simp only [isDigitCh, Bool.and_eq_true, decide_eq_true_eq]
        rw [charOfNat_toNat (by omega)]
        omega
      · exact hacc c h2
    · refine ih (n / 10) _ ?_
      intro c hc
      rcases List.mem_cons.mp hc with rfl | h2
      · simp only [isDigitCh, Bool.and_eq_true, decide_eq_true_eq]
        rw [charOfNat_toNat (by omega)]
        omega
      · exact hacc c h2

theorem natToDigitsAux_length :
    ∀ fuel n acc, acc.length ≤ (natToDigitsAux fuel n acc).length := by
  intro fuel
  induction fuel with
  | zero => intro n acc; simp [natToDigitsAux]
  | succ f ih =>
    intro n acc
    simp only [natToDigitsAux]
    split
    · simp
    · exact Nat.le_trans (by simp) (ih (n / 10) _)

theorem natToDigits_digits (n : Nat) : ∀ c ∈ natToDigits n, isDigitCh c = true :=
  natToDigitsAux_digits _ n [] (by simp)

theorem natToDigits_ne_nil (n : Nat) : natToDigits n ≠ [] := by
  unfold natToDigits
  simp only [natToDigitsAux]
  split
  · simp
  · intro hcon
    have := natToDigitsAux_length n (n / 10) [Char.ofNat (48 + n % 10)]
    rw [hcon] at this
    simp at this

theorem digitsToNat_foldl (a : Nat) (l : List Char) :
    l.foldl (fun x c => x * 10 + (c.toNat - 48)) a =
      a * 10 ^ l.length + digitsToNat l := by
  induction l generalizing a with
  | nil => simp [digitsToNat]
  | cons c l ih =>
    simp only [List.foldl_cons, List.length_cons, digitsToNat]
    rw [ih, ih (0 * 10 + (c.toNat - 48))]
    ring

theorem digitsToNat_append (A B : List Char) :
    digitsToNat (A ++ B) = digitsToNat A * 10 ^ B.length + digitsToNat B := by
  unfold digitsToNat
  rw [List.foldl_append]
  exact digitsToNat_foldl _ B

theorem digitsToNat_lt {l : List Char} (hl : ∀ c ∈ l, isDigitCh c = true) :
    digitsToNat l < 10 ^ l.length := by
  induction l with
  | nil => simp [digitsToNat]
  | cons c l ih =>
    have hc := hl c (List.mem_cons_self _ _)
    simp only [isDigitCh, Bool.and_eq_true, decide_eq_true_eq] at hc
    have hrest := ih (fun x hx => hl x (List.mem_cons_of_mem _ hx))
    show digitsToNat (c :: l) < 10 ^ (c :: l).length
    have : digitsToNat (c :: l) = (c.toNat - 48) * 10 ^ l.length + digitsToNat l := by
      show List.foldl _ (0 * 10 + (c.toNat - 48)) l = _
      rw [digitsToNat_foldl]
      ring
    rw [this, List.length_cons, pow_succ]
    have h9 : c.toNat - 48 ≤ 9 := by omega
    calc (c.toNat - 48) * 10 ^ l.length + digitsToNat l
        < (c.toNat - 48) * 10 ^ l.length + 10 ^ l.length := by omega
      _ = (c.toNat - 48 + 1) * 10 ^ l.length := by ring
      _ ≤ 10 * 10 ^ l.length := Nat.mul_le_mul_right _ (by omega)
      _ = 10 ^ l.length * 10 := by ring

theorem natToDigitsAux_val : ∀ fuel n acc, n < 10 ^ fuel →
    digitsToNat (natToDigitsAux fuel n acc) = n * 10 ^ acc.length + digitsToNat acc := by
  intro fuel
  induction fuel with
  | zero => intro n acc hn; interval_cases n; simp [natToDigitsAux]
  | succ f ih =>
    intro n acc hn
    simp only [natToDigitsAux]
    split
    · next h10 =>
      show List.foldl _ 0 _ = _
      rw [List.foldl_cons, digitsToNat_foldl]
      rw [charOfNat_toNat (by omega)]
      have : 0 * 10 + (48 + n - 48) = n := by omega
      rw [this]
    · next h10 =>
      have hdiv : n / 10 < 10 ^ f := by
        rw [pow_succ] at hn
        omega
      rw [ih (n / 10) _ hdiv]
      show _ = n * 10 ^ acc.length + digitsToNat acc
      have hstep : digitsToNat (Char.ofNat (48 + n % 10) :: acc) =
          (n % 10) * 10 ^ acc.length + digitsToNat acc := by
        show List.foldl _ 0 _ = _
        rw [List.foldl_cons, digitsToNat_foldl]
        rw [charOfNat_toNat (by omega)]
        have : 0 * 10 + (48 + n % 10 - 48) = n % 10 := by omega
        rw [this]
      rw [hstep, List.length_cons, pow_succ]
      have h2 : n / 10 * 10 + n % 10 = n := by omega
      calc n / 10 * (10 ^ acc.length * 10) + ((n % 10) * 10 ^ acc.length + digitsToNat acc)
          = (n / 10 * 10 + n % 10) * 10 ^ acc.length + digitsToNat acc := by ring
        _ = n * 10 ^ acc.length + digitsToNat acc := by rw [h2]

theorem digitsToNat_natToDigits (n : Nat) : digitsToNat (natToDigits n) = n := by
  unfold natToDigits
  have hn : n < 10 ^ (n + 1) := by
    have h1 : n < 10 ^ n := Nat.lt_pow_self (by norm_num) n
    have h2 : 10 ^ n ≤ 10 ^ (n + 1) := Nat.pow_le_pow_right (by norm_num) (Nat.le_succ n)
    omega
  rw [natToDigitsAux_val (n + 1) n [] hn]
  simp [digitsToNat]

theorem dropWhile_all_false {p : Char → Bool} {l : List Char}
    (h : ∀ c ∈ l, p c = false) : l.dropWhile p = l := by
  cases l with
  | nil => rfl
  | cons a l =>
    rw [List.dropWhile_cons, if_neg]
    simp [h a (by simp)]

theorem jsTrim_eq_self {s : String} (h : ∀ c ∈ s.data, isJsWs c = false) : jsTrim s = s := by
  unfold jsTrim
  rw [dropWhile_all_false h, dropWhile_all_false]
  · simp
  · intro c hc
    exact h c (List.mem_reverse.mp hc)

theorem takeWhile_append_all {p : Char → Bool} :
    ∀ (D r : List Char), (∀ c ∈ D, p c = true) →
      (D ++ r).takeWhile p = D ++ r.takeWhile p := by
  intro D
  induction D with
  | nil => simp
  | cons a D ih =>
    intro r h
    simp only [List.cons_append, List.takeWhile_cons, h a (by simp), if_true]
    rw [ih r (fun c hc => h c (by simp [hc]))]

theorem dropWhile_append_all {p : Char → Bool} :
    ∀ (D r : List Char), (∀ c ∈ D, p c = true) →
      (D ++ r).dropWhile p = r.dropWhile p := by
  intro D
  induction D with
  | nil => simp
  | cons a D ih =>
    intro r h
    simp only [List.cons_append, List.dropWhile_cons, h a (by simp), if_true]
    exact ih r (fun c hc => h c (by simp [hc]))

theorem takeWhile_all {p : Char → Bool} {l : List Char}
    (h : ∀ c ∈ l, p c = true) : l.takeWhile p = l := by
  have := takeWhile_append_all l [] h
  simpa using this

theorem dropWhile_all {p : Char → Bool} {l : List Char}
    (h : ∀ c ∈ l, p c = true) : l.dropWhile p = [] := by
  have := dropWhile_append_all l [] h
  simpa using this

theorem digit_ne_plus {d : Char} (h : isDigitCh d = true) : (d == '+') = false := by
  simp only [isDigitCh, Bool.and_eq_true, decide_eq_true_eq] at h
  rw [beq_eq_false_iff_ne]
  intro hEq
  rw [hEq] at h
  exact absurd h (by decide)

theorem digit_ne_minus {d : Char} (h : isDigitCh d = true) : (d == '-') = false := by
  simp only [isDigitCh, Bool.and_eq_true, decide_eq_true_eq] at h
  rw [beq_eq_false_iff_ne]
  intro hEq
  rw [hEq] at h
  exact absurd h (by decide)

theorem digit_not_dot {d : Char} (h : isDigitCh d = true) : (d == '.') = false := by
  simp only [isDigitCh, Bool.and_eq_true, decide_eq_true_eq] at h
  rw [beq_eq_false_iff_ne]
  intro hEq
  rw [hEq] at h
  exact absurd h (by decide)

theorem jsParseNumCore_digits_val {D : List Char} (hD : ∀ c ∈ D, isDigitCh c = true)
    (hD0 : D ≠ []) : jsParseNumCore D = some ⟨(digitsToNat D : Int), 1⟩ := by
  obtain ⟨d, D2, rfl⟩ : ∃ d D2, D = d :: D2 := by
    cases D with
    | nil => exact absurd rfl hD0
    | cons a l => exact ⟨a, l, rfl⟩
  simp only [jsParseNumCore, takeWhile_all hD, dropWhile_all hD]
  simp [List.length_cons]

theorem jsParseNumCore_digits_dot_val {D P : List Char} (hD : ∀ c ∈ D, isDigitCh c = true)
    (hD0 : D ≠ []) (hP : ∀ c ∈ P, isDigitCh c = true) :
    jsParseNumCore (D ++ '.' :: P) = some ⟨(digitsToNat (D ++ P) : Int), 10 ^ P.length⟩ := by
  obtain ⟨d, D2, rfl⟩ : ∃ d D2, D = d :: D2 := by
    cases D with
    | nil => exact absurd rfl hD0
    | cons a l => exact ⟨a, l, rfl⟩
  have htw : ((d :: D2) ++ '.' :: P).takeWhile isDigitCh = (d :: D2) := by
    rw [takeWhile_append_all _ _ hD]
    simp [List.takeWhile_cons, show isDigitCh '.' = false from by decide]
  have hdw : ((d :: D2) ++ '.' :: P).dropWhile isDigitCh = '.' :: P := by
    rw [dropWhile_append_all _ _ hD]
    simp [List.dropWhile_cons, show isDigitCh '.' = false from by decide]
  simp only [List.cons_append] at htw hdw
  simp only [jsParseNumCore, List.cons_append, htw, hdw, takeWhile_all hP, dropWhile_all hP]
  simp [List.length_cons]

theorem digitDot_ne_radix {c : Char} (h : isDigitCh c = true ∨ c = '.') :
    (c == 'x') = false ∧ (c == 'X') = false ∧ (c == 'o') = false ∧
      (c == 'O') = false ∧ (c == 'b') = false ∧ (c == 'B') = false := by
  have ht : c.toNat = 46 ∨ (48 ≤ c.toNat ∧ c.toNat ≤ 57) := by
    rcases h with h | rfl
    · simp only [isDigitCh, Bool.and_eq_true, decide_eq_true_eq] at h
      omega
    · exact Or.inl rfl
  refine ⟨?_, ?_, ?_, ?_, ?_, ?_⟩ <;>
    (rw [beq_eq_false_iff_ne]; intro hEq; subst hEq; revert ht; decide)

theorem jsParseNumber_eq_core {d : Char} {r : List Char} (hd : isDigitCh d = true)
    (hr : ∀ c, r.head? = some c → isDigitCh c = true ∨ c = '.') :
    jsParseNumber (d :: r) = jsParseNumCore (d :: r) := by
  simp only [jsParseNumber]
  by_cases h0 : d = '0'
  · subst h0
    rw [if_pos (by decide)]
    cases r with
    | nil => rfl
    | cons c2 r2 =>
      obtain ⟨hx, hX, ho, hO, hb, hB⟩ := digitDot_ne_radix (hr c2 rfl)
      dsimp only
      rw [if_neg (by simp [hx, hX]), if_neg (by simp [ho, hO]), if_neg (by simp [hb, hB])]
  · have h0' : (d == '0') = false := by
      rw [beq_eq_false_iff_ne]
      exact h0
    rw [if_neg (by simp [h0']), if_neg (by simp [digit_ne_plus hd]),
      if_neg (by simp [digit_ne_minus hd])]

theorem jsParseNumber_digits_val {D : List Char} (hD : ∀ c ∈ D, isDigitCh c = true)
    (hD0 : D ≠ []) : jsParseNumber D = some ⟨(digitsToNat D : Int), 1⟩ := by
  obtain ⟨d, D2, rfl⟩ : ∃ d D2, D = d :: D2 := by
    cases D with
    | nil => exact absurd rfl hD0
    | cons a l => exact ⟨a, l, rfl⟩
  rw [jsParseNumber_eq_core (hD d (by simp))
    (fun c hc => Or.inl (hD c (List.mem_cons_of_mem _ (List.mem_of_mem_head? hc))))]
  exact jsParseNumCore_digits_val hD hD0

theorem jsParseNumber_digits_dot_val {D P : List Char} (hD : ∀ c ∈ D, isDigitCh c = true)
    (hD0 : D ≠ []) (hP : ∀ c ∈ P, isDigitCh c = true) :
    jsParseNumber (D ++ '.' :: P) = some ⟨(digitsToNat (D ++ P) : Int), 10 ^ P.length⟩ := by
  obtain ⟨d, D2, rfl⟩ : ∃ d D2, D = d :: D2 := by
    cases D with
    | nil => exact absurd rfl hD0
    | cons a l => exact ⟨a, l, rfl⟩
  have hhead : ∀ c, (D2 ++ '.' :: P).head? = some c → isDigitCh c = true ∨ c = '.' := by
    intro c hc
    have hmem : c ∈ D2 ++ '.' :: P := List.mem_of_mem_head? hc
    rcases List.mem_append.mp hmem with h1 | h2
    · exact Or.inl (hD c (List.mem_cons_of_mem _ h1))
    · rcases List.mem_cons.mp h2 with rfl | h3
      · exact Or.inr rfl
      · exact Or.inl (hP c h3)
  rw [show (d :: D2) ++ '.' :: P = d :: (D2 ++ '.' :: P) from rfl]
  rw [jsParseNumber_eq_core (hD d (by simp)) ?hh]
  case hh =>
    intro c hc
    cases D2 with
    | nil => exact hhead c hc
    | cons a l => exact hhead c hc
  rw [show d :: (D2 ++ '.' :: P) = (d :: D2) ++ '.' :: P from rfl]
  exact jsParseNumCore_digits_dot_val hD hD0 hP

theorem jsParseNumber_neg_digits_val {D : List Char} (hD : ∀ c ∈ D, isDigitCh c = true)
    (hD0 : D ≠ []) : jsParseNumber ('-' :: D) = some ⟨-(digitsToNat D : Int), 1⟩ := by
  simp only [jsParseNumber]
  rw [if_neg (by decide), if_neg (by decide), if_pos (by decide)]
  rw [jsParseNumCore_digits_val hD hD0]
  rfl

theorem jsParseNumber_neg_digits_dot_val {D P : List Char}
    (hD : ∀ c ∈ D, isDigitCh c = true) (hD0 : D ≠ [])
    (hP : ∀ c ∈ P, isDigitCh c = true) :
    jsParseNumber ('-' :: (D ++ '.' :: P)) =
      some ⟨-(digitsToNat (D ++ P) : Int), 10 ^ P.length⟩ := by
  simp only [jsParseNumber]
  rw [if_neg (by decide), if_neg (by decide), if_pos (by decide)]
  rw [jsParseNumCore_digits_dot_val hD hD0 hP]
  rfl

theorem digit_not_ws {c : Char} (h : isDigitCh c = true) : isJsWs c = false := by
  simp only [isDigitCh, Bool.and_eq_true, decide_eq_true_eq] at h
  rw [Bool.eq_false_iff]
  intro hws
  simp only [isJsWs, Bool.or_eq_true, Bool.and_eq_true, beq_iff_eq,
    Nat.beq_eq_true_eq, decide_eq_true_eq] at hws
  omega

theorem numBodyCore_noWs (ip fd w : Nat) :
    ∀ c ∈ numBodyCore ip fd w, isJsWs c = false := by
  unfold numBodyCore
  split
  · exact fun c hc => digit_not_ws (natToDigits_digits ip c hc)
  · intro c hc
    rcases List.mem_append.mp hc with h1 | h2
    · exact digit_not_ws (natToDigits_digits ip c h1)
    · rcases List.mem_cons.mp h2 with rfl | h3
      · decide
      · simp only [padLeftZeros] at h3
        rcases List.mem_append.mp h3 with h4 | h5
        · rw [List.eq_of_mem_replicate h4]; decide
        · exact digit_not_ws (natToDigits_digits fd c h5)

theorem numBodyCore_ne_nil (ip fd w : Nat) : numBodyCore ip fd w ≠ [] := by
  unfold numBodyCore
  split
  · exact natToDigits_ne_nil ip
  · intro hcon
    rcases List.append_eq_nil.mp hcon with ⟨h1, h2⟩
    exact natToDigits_ne_nil ip h1

theorem padLeftZeros_digits {l : List Char} (hl : ∀ c ∈ l, isDigitCh c = true) (w : Nat) :
    ∀ c ∈ padLeftZeros l w, isDigitCh c = true := by
  intro c hc
  simp only [padLeftZeros] at hc
  rcases List.mem_append.mp hc with h1 | h2
  · rw [List.eq_of_mem_replicate h1]; decide
  · exact hl c h2

theorem numBody_parse_fin (ip fd w : Nat) (hip : ip < jsOverflow) :
    ∃ q, jsParseNumber (numBodyCore ip fd w) = some q ∧ JOK q := by
  unfold numBodyCore
  split
  · refine ⟨_, jsParseNumber_digits_val (natToDigits_digits ip) (natToDigits_ne_nil ip),
      by norm_num, ?_⟩
    simp only [Int.natAbs_ofNat, digitsToNat_natToDigits]
    simpa using hip
  · refine ⟨_, jsParseNumber_digits_dot_val (natToDigits_digits ip)
      (natToDigits_ne_nil ip) (padLeftZeros_digits (natToDigits_digits fd) w), ?_, ?_⟩
    · positivity
    · simp only [Int.natAbs_ofNat]
      rw [digitsToNat_append, digitsToNat_natToDigits]
      have hP := digitsToNat_lt (padLeftZeros_digits (natToDigits_digits fd) w)
      calc ip * 10 ^ (padLeftZeros (natToDigits fd) w).length +
            digitsToNat (padLeftZeros (natToDigits fd) w)
          < (ip + 1) * 10 ^ (padLeftZeros (natToDigits fd) w).length := by
            rw [add_mul, one_mul]
            omega
        _ ≤ jsOverflow * 10 ^ (padLeftZeros (natToDigits fd) w).length :=
            Nat.mul_le_mul_right _ (by omega)

theorem numBody_parse_fin_neg (ip fd w : Nat) (hip : ip < jsOverflow) :
    ∃ q, jsParseNumber ('-' :: numBodyCore ip fd w) = some q ∧ JOK q := by
  unfold numBodyCore
  split
  · refine ⟨_, jsParseNumber_neg_digits_val (natToDigits_digits ip) (natToDigits_ne_nil ip),
      by norm_num, ?_⟩
    simp only [Int.natAbs_neg, Int.natAbs_ofNat, digitsToNat_natToDigits]
    simpa using hip
  · refine ⟨_, jsParseNumber_neg_digits_dot_val (natToDigits_digits ip)
      (natToDigits_ne_nil ip) (padLeftZeros_digits (natToDigits_digits fd) w), ?_, ?_⟩
    · positivity
    · simp only [Int.natAbs_neg, Int.natAbs_ofNat]
      rw [digitsToNat_append, digitsToNat_natToDigits]
      have hP := digitsToNat_lt (padLeftZeros_digits (natToDigits_digits fd) w)
      calc ip * 10 ^ (padLeftZeros (natToDigits fd) w).length +
            digitsToNat (padLeftZeros (natToDigits fd) w)
          < (ip + 1) * 10 ^ (padLeftZeros (natToDigits fd) w).length := by
            rw [add_mul, one_mul]
            omega
        _ ≤ jsOverflow * 10 ^ (padLeftZeros (natToDigits fd) w).length :=
            Nat.mul_le_mul_right _ (by omega)

theorem isNumeric_of_parse_bound {l : List Char} {q : JNum}
    (h : jsParseNumber l = some q) (hb : q.num.natAbs < jsOverflow * q.den)
    (hne : l ≠ []) (hws : ∀ c ∈ l, isJsWs c = false) : isNumeric ⟨l⟩ = true := by
  unfold isNumeric
  rw [jsTrim_eq_self hws]
  dsimp only
  have hemp : l.isEmpty = false := by simp [List.isEmpty_iff, hne]
  rw [hemp, h]
  simpa using hb

theorem isNumeric_numToString_fin {q : JNum} (hd : 0 < q.den)
    (hb : q.num.natAbs < jsOverflow * q.den) : isNumeric (numToString q) = true := by
  have hip : q.num.natAbs / q.den < jsOverflow := by
    rw [Nat.div_lt_iff_lt_mul hd]
    exact hb
  simp only [numToString]
  split
  · obtain ⟨p, hp, hpd, hpb⟩ := numBody_parse_fin_neg (q.num.natAbs / q.den) _ _ hip
    refine isNumeric_of_parse_bound hp hpb (by simp) ?_
    intro c hc
    rcases List.mem_cons.mp hc with rfl | h2
    · decide
    · exact numBodyCore_noWs _ _ _ c h2
  · obtain ⟨p, hp, hpd, hpb⟩ := numBody_parse_fin (q.num.natAbs / q.den) _ _ hip
    exact isNumeric_of_parse_bound hp hpb (numBodyCore_ne_nil _ _ _) (numBodyCore_noWs _ _ _)

theorem jsParseNumCore_den_pos : ∀ {cs : List Char} {q : JNum},
    jsParseNumCore cs = some q → 0 < q.den := by
  intro cs q h
  unfold jsParseNumCore at h
  dsimp only at h
  split at h
  · simp at h
  · split at h
    · rw [Option.some.injEq] at h
      subst h
      positivity
    · split at h
      · split at h
        · simp at h
        · split at h
          · rw [Option.some.injEq] at h
            subst h
            positivity
          · rw [Option.some.injEq] at h
            subst h
            positivity
      · simp at h

theorem jsParseNumber_den_pos {cs : List Char} {q : JNum}
    (h : jsParseNumber cs = some q) : 0 < q.den := by
  unfold jsParseNumber at h
  split at h
  · exact jsParseNumCore_den_pos h
  · split at h
    · split at h
      · exact jsParseNumCore_den_pos h
      · split at h
        · unfold jsRadix at h
          split at h
          · rw [Option.some.injEq] at h
            subst h
            norm_num
          · simp at h
        · split at h
          · unfold jsRadix at h
            split at h
            · rw [Option.some.injEq] at h
              subst h
              norm_num
            · simp at h
          · split at h
            · unfold jsRadix at h
              split at h
              · rw [Option.some.injEq] at h
                subst h
                norm_num
              · simp at h
            · exact jsParseNumCore_den_pos h
    · split at h
      · exact jsParseNumCore_den_pos h
      · split at h
        · rcases Option.map_eq_some'.mp h with ⟨p, hp, hq⟩
          subst hq
          have := jsParseNumCore_den_pos hp
          exact this
        · exact jsParseNumCore_den_pos h

theorem isNumeric_jsNumber {s : String} (h : isNumeric s = true) : JOK (jsNumber s) := by
  unfold isNumeric at h
  dsimp only at h
  rw [Bool.and_eq_true] at h
  obtain ⟨h1, h2⟩ := h
  unfold jsNumber
  rcases hp : jsParseNumber (jsTrim s).data with _ | q
  · rw [hp] at h2
    simp at h2
  · rw [hp] at h2
    dsimp only at h2
    simp only [decide_eq_true_eq] at h2
    exact ⟨jsParseNumber_den_pos hp, by simpa using h2⟩

/-! ## Helper lemmas: result classification of the non-recursive evaluators -/

theorem startsHash_eq (s : String) : startsHash s = isErrorValue s := rfl

theorem jsOverflow_pos : 0 < jsOverflow := by
  have h : (2 : Nat) ^ 970 < 2 ^ 1024 := Nat.pow_lt_pow_right (by norm_num) (by norm_num)
  unfold jsOverflow
  omega

theorem JOK_jzero : JOK jzero := by
  refine ⟨by simp [jzero], ?_⟩
  have := jsOverflow_pos
  simpa [jzero]

theorem isNumeric_zero : isNumeric "0" = true :=
  isNumeric_of_parse_bound (show jsParseNumber ['0'] = some ⟨0, 1⟩ from rfl)
    (by simpa using jsOverflow_pos) (by simp) (by decide)

theorem jvalToString_shape {v : JVal} (hfin : ∀ q, v = .fin q → JOK q) :
    ValShape (jvalToString v) := by
  cases v with
  | fin q => exact Or.inl (isNumeric_numToString_fin (hfin q rfl).1 (hfin q rfl).2)
  | inf => exact Or.inr (Or.inr (Or.inr (Or.inl rfl)))
  | ninf => exact Or.inr (Or.inr (Or.inr (Or.inr rfl)))

theorem satJS_fin {q p : JNum} (hd : 0 < q.den) (h : satJS q = .fin p) : JOK p := by
  unfold satJS at h
  split at h
  · next hb =>
    cases h
    exact ⟨hd, hb⟩
  · split at h <;> exact JVal.noConfusion h

theorem satJS_shape {q : JNum} (hd : 0 < q.den) : ValShape (jvalToString (satJS q)) :=
  jvalToString_shape (fun p hp => satJS_fin hd hp)

theorem foldl_jaddStep_fin :
    ∀ (l : List JNum) (acc : JVal), (∀ a, acc = .fin a → JOK a) → (∀ v ∈ l, 0 < v.den) →
      ∀ q, l.foldl jaddStep acc = .fin q → JOK q := by
  intro l
  induction l with
  | nil =>
    intro acc hacc _ q h
    simp only [List.foldl_nil] at h
    exact hacc q h
  | cons v l ih =>
    intro acc hacc hl q h
    simp only [List.foldl_cons] at h
    refine ih (jaddStep acc v) ?_ (fun x hx => hl x (List.mem_cons_of_mem _ hx)) q h
    intro a ha
    cases acc with
    | fin b =>
      have hbd : 0 < (jadd b v).den := by
        have h1 := (hacc b rfl).1
        have h2 := hl v (List.mem_cons_self _ _)
        simp only [jadd]
        positivity
      exact satJS_fin hbd ha
    | inf => exact JVal.noConfusion ha
    | ninf => exact JVal.noConfusion ha

theorem foldl_jmin_mem : ∀ (l : List JNum) (acc : JNum), l.foldl jmin acc ∈ acc :: l := by
  intro l
  induction l with
  | nil => intro acc; simp
  | cons v l ih =>
    intro acc
    simp only [List.foldl_cons]
    have hmem := ih (jmin acc v)
    have hj : jmin acc v = acc ∨ jmin acc v = v := by
      unfold jmin
      split
      · exact Or.inl rfl
      · exact Or.inr rfl
    rcases List.mem_cons.mp hmem with h1 | h2
    · rcases hj with h3 | h3
      · rw [h1, h3]
        exact List.mem_cons_self _ _
      · rw [h1, h3]
        exact List.mem_cons_of_mem _ (List.mem_cons_self _ _)
    · exact List.mem_cons_of_mem _ (List.mem_cons_of_mem _ h2)

theorem foldl_jmax_mem : ∀ (l : List JNum) (acc : JNum), l.foldl jmax acc ∈ acc :: l := by
  intro l
  induction l with
  | nil => intro acc; simp
  | cons v l ih =>
    intro acc
    simp only [List.foldl_cons]
    have hmem := ih (jmax acc v)
    have hj : jmax acc v = acc ∨ jmax acc v = v := by
      unfold jmax
      split
      · exact Or.inr rfl
      · exact Or.inl rfl
    rcases List.mem_cons.mp hmem with h1 | h2
    · rcases hj with h3 | h3
      · rw [h1, h3]
        exact List.mem_cons_self _ _
      · rw [h1, h3]
        exact List.mem_cons_of_mem _ (List.mem_cons_self _ _)
    · exact List.mem_cons_of_mem _ (List.mem_cons_of_mem _ h2)

theorem pushFromCoord_inv (G : Grid) (st : FuncState) (r c : Nat)
    (hst : ∀ v ∈ st.1, JOK v) : ∀ v ∈ (pushFromCoord G st r c).1, JOK v := by
  intro v hv
  unfold pushFromCoord at hv
  dsimp only at hv
  split at hv
  · next hnum =>
    rcases List.mem_append.mp hv with h1 | h2
    · split at h1
      · exact hst v h1
      · exact hst v h1
    · rw [List.mem_singleton] at h2
      subst h2
      exact isNumeric_jsNumber hnum
  · split at hv
    · exact hst v hv
    · exact hst v hv

theorem processArg_inv (G : Grid) (mr mc : Nat) (st : FuncState) (arg : String)
    (hst : ∀ v ∈ st.1, JOK v) : ∀ v ∈ (processArg G mr mc st arg).1, JOK v := by
  intro v hv
  unfold processArg at hv
  dsimp only at hv
  split at hv
  · exact hst v hv
  · split at hv
    · have hfold : ∀ (L : List (Nat × Nat)) (s : FuncState), (∀ x ∈ s.1, JOK x) →
          ∀ x ∈ (L.foldl (fun s coord => pushFromCoord G s coord.1 coord.2) s).1, JOK x := by
        intro L
        induction L with
        | nil =>
          intro s hs x hx
          simp only [List.foldl_nil] at hx
          exact hs x hx
        | cons p L ih =>
          intro s hs x hx
          simp only [List.foldl_cons] at hx
          exact ih _ (pushFromCoord_inv G s p.1 p.2 hs) x hx
      exact hfold _ _ hst v hv
    · split at hv
      · split at hv
        · exact hst v hv
        · exact pushFromCoord_inv _ _ _ _ hst v hv
      · split at hv
        · next hnum =>
          rcases List.mem_append.mp hv with h1 | h2
          · split at h1
            · exact hst v h1
            · exact hst v h1
          · rw [List.mem_singleton] at h2
            subst h2
            exact isNumeric_jsNumber hnum
        · split at hv
          · exact hst v hv
          · exact hst v hv

theorem foldl_processArg_inv (G : Grid) (mr mc : Nat) :
    ∀ (args : List String) (st : FuncState), (∀ v ∈ st.1, JOK v) →
      ∀ v ∈ (args.foldl (processArg G mr mc) st).1, JOK v := by
  intro args
  induction args with
  | nil =>
    intro st hst v hv
    simp only [List.foldl_nil] at hv
    exact hst v hv
  | cons a args ih =>
    intro st hst v hv
    simp only [List.foldl_cons] at hv
    exact ih _ (processArg_inv G mr mc st a hst) v hv

theorem numToString_jofNat (n : Nat) : (numToString (jofNat n)).data = natToDigits n := by
  simp only [numToString, jofNat, Int.natAbs_ofNat, Nat.div_one, Nat.mod_one]
  rw [if_neg (not_lt.mpr (Int.natCast_nonneg n))]
  rfl

theorem ValShape_ResultShape {G : Grid} {s : String} (h : ValShape s) : ResultShape G s := by
  rcases h with h | h | h | h | h
  · exact Or.inl h
  · exact Or.inr (Or.inl h)
  · exact Or.inr (Or.inr (Or.inr (Or.inl h)))
  · exact Or.inr (Or.inr (Or.inr (Or.inr (Or.inr (Or.inl h)))))
  · exact Or.inr (Or.inr (Or.inr (Or.inr (Or.inr (Or.inr h)))))

theorem applyOp_shape (l r op : String) : ValShape (applyOp l r op) := by
  unfold applyOp
  dsimp only
  split_ifs with h1 h2 h3 h4 h5 h6 h7 h8
  · exact Or.inr (Or.inl ((startsHash_eq l).symm ▸ h1))
  · exact Or.inr (Or.inl ((startsHash_eq r).symm ▸ h2))
  · exact Or.inr (Or.inl (by decide))
  · have hnum : isNumeric l = true ∧ isNumeric r = true := by
      simp only [Bool.or_eq_true, Bool.not_eq_true'] at h3
      push_neg at h3
      exact ⟨eq_true_of_ne_false h3.1, eq_true_of_ne_false h3.2⟩
    have hden : 0 < (jadd (jsNumber l) (jsNumber r)).den := by
      simp only [jadd]
      have := (isNumeric_jsNumber hnum.1).1
      have := (isNumeric_jsNumber hnum.2).1
      positivity
    exact satJS_shape hden
  · have hnum : isNumeric l = true ∧ isNumeric r = true := by
      simp only [Bool.or_eq_true, Bool.not_eq_true'] at h3
      push_neg at h3
      exact ⟨eq_true_of_ne_false h3.1, eq_true_of_ne_false h3.2⟩
    have hden : 0 < (jsub (jsNumber l) (jsNumber r)).den := by
      simp only [jsub]
      have := (isNumeric_jsNumber hnum.1).1
      have := (isNumeric_jsNumber hnum.2).1
      positivity
    exact satJS_shape hden
  · have hnum : isNumeric l = true ∧ isNumeric r = true := by
      simp only [Bool.or_eq_true, Bool.not_eq_true'] at h3
      push_neg at h3
      exact ⟨eq_true_of_ne_false h3.1, eq_true_of_ne_false h3.2⟩
    have hden : 0 < (jmul (jsNumber l) (jsNumber r)).den := by
      simp only [jmul]
      have := (isNumeric_jsNumber hnum.1).1
      have := (isNumeric_jsNumber hnum.2).1
      positivity
    exact satJS_shape hden
  · exact Or.inr (Or.inl (by decide))
  · have hnum : isNumeric l = true ∧ isNumeric r = true := by
      simp only [Bool.or_eq_true, Bool.not_eq_true'] at h3
      push_neg at h3
      exact ⟨eq_true_of_ne_false h3.1, eq_true_of_ne_false h3.2⟩
    have hden : 0 < (jdiv (jsNumber l) (jsNumber r)).den := by
      simp only [jdiv]
      have ha := (isNumeric_jsNumber hnum.1).1
      have hb : (jsNumber r).num ≠ 0 := by
        simpa using h8
      have hb2 : 0 < (jsNumber r).num.natAbs := Int.natAbs_pos.mpr hb
      positivity
    exact satJS_shape hden
  · exact Or.inr (Or.inl (by decide))

theorem isDigitCh_isDigitDot {l : List Char} (h : ∀ c ∈ l, isDigitCh c = true) :
    l.all isDigitDot = true := by
  rw [List.all_eq_true]
  intro c hc
  simp only [isDigitDot, Bool.or_eq_true]
  exact Or.inl (h c hc)

theorem evaluateFunction_shape (name : String) (args : List String) (grid : Grid) :
    ValShape (evaluateFunction name args grid) := by
  have hst := foldl_processArg_inv grid grid.length (grid.headD []).length args ([], 0)
    (by simp)
  unfold evaluateFunction
  dsimp only
  split_ifs with h1 h2 h3 h4 h5 h6 h7 h8 h9 h10 h11
  · exact Or.inr (Or.inl (by decide))
  · refine jvalToString_shape ?_
    intro q hq
    refine foldl_jaddStep_fin _ _ ?_ (fun v hv => (hst v hv).1) q hq
    intro a ha
    cases ha
    exact JOK_jzero
  · exact Or.inr (Or.inl (by decide))
  · exact Or.inl isNumeric_zero
  · refine jvalToString_shape ?_
    intro q hq
    unfold javgDiv at hq
    rcases hfold : List.foldl jaddStep (JVal.fin jzero)
        (args.foldl (processArg grid grid.length (grid.headD []).length) ([], 0)).1 with a | _ | _ <;>
      rw [hfold] at hq
    · have hja : JOK a := by
        refine foldl_jaddStep_fin _ _ ?_ (fun v hv => (hst v hv).1) a hfold
        intro b hb
        cases hb
        exact JOK_jzero
      have hden : 0 < (jdiv a (jofNat (args.foldl (processArg grid grid.length
          (grid.headD []).length) ([], 0)).1.length)).den := by
        simp only [jdiv, jofNat]
        have ha := hja.1
        have hlen : 0 < (args.foldl (processArg grid grid.length
            (grid.headD []).length) ([], 0)).1.length := by
          rcases Nat.eq_zero_or_pos (args.foldl (processArg grid grid.length
              (grid.headD []).length) ([], 0)).1.length with hz | hp
          · rw [hz] at h5
            simp at h5
          · exact hp
        simp only [Int.natAbs_ofNat]
        positivity
      exact satJS_fin hden hq
    · exact JVal.noConfusion hq
    · exact JVal.noConfusion hq
  · exact Or.inr (Or.inl (by decide))
  · split
    · exact Or.inl isNumeric_zero
    · next v vs heq =>
      refine Or.inl ?_
      have hmem := foldl_jmin_mem vs v
      rw [← heq] at hmem
      have hok := hst _ hmem
      exact isNumeric_numToString_fin hok.1 hok.2
  · exact Or.inr (Or.inl (by decide))
  · split
    · exact Or.inl isNumeric_zero
    · next v vs heq =>
      refine Or.inl ?_
      have hmem := foldl_jmax_mem vs v
      rw [← heq] at hmem
      have hok := hst _ hmem
      exact isNumeric_numToString_fin hok.1 hok.2
  · exact Or.inr (Or.inl (by decide))
  · refine Or.inr (Or.inr (Or.inl ?_))
    rw [numToString_jofNat]
    exact ⟨natToDigits_ne_nil _, isDigitCh_isDigitDot (natToDigits_digits _)⟩
  · exact Or.inr (Or.inl (by decide))

/-! ## Helper lemmas: the parser only consumes tokens (suffix invariant) -/

theorem collectArgs_suffix : ∀ (toks : List String) (depth : Nat),
    (collectArgs toks depth).2 <:+ toks := by
  intro toks
  induction toks with
  | nil => intro depth; simp [collectArgs]
  | cons tk rest ih =>
    intro depth
    simp only [collectArgs]
    split <;> (try split) <;> (try split) <;>
      first
        | exact List.suffix_cons tk rest
        | exact (ih _).trans (List.suffix_cons tk rest)

theorem parseSuffix : ∀ fuel grid vis,
    (∀ toks, (parseExpressionF fuel grid vis toks).2 <:+ toks) ∧
    (∀ left toks, (parseExpLoopF fuel grid vis left toks).2 <:+ toks) ∧
    (∀ toks, (parseTermF fuel grid vis toks).2 <:+ toks) ∧
    (∀ left toks, (parseTermLoopF fuel grid vis left toks).2 <:+ toks) ∧
    (∀ toks, (parseUnaryF fuel grid vis toks).2 <:+ toks) ∧
    (∀ toks, (parsePrimaryF fuel grid vis toks).2 <:+ toks) := by
  intro fuel
  induction fuel with
  | zero =>
    intro grid vis
    refine ⟨?_, ?_, ?_, ?_, ?_, ?_⟩ <;> intros <;>
      simp [parseExpressionF, parseExpLoopF, parseTermF, parseTermLoopF, parseUnaryF,
        parsePrimaryF]
  | succ f ih =>
    intro grid vis
    obtain ⟨ihE, ihEL, ihT, ihTL, ihU, ihP⟩ := ih grid vis
    refine ⟨?_, ?_, ?_, ?_, ?_, ?_⟩
    · intro toks
      simp only [parseExpressionF]
      rcases hp : parseTermF f grid vis toks with ⟨pv, pt⟩
      have hsub : pt <:+ toks := by have := ihT toks; rw [hp] at this; exact this
      simp only [hp]
      cases pv with
      | none => exact hsub
      | some lv => exact (ihEL lv pt).trans hsub
    · intro left toks
      cases toks with
      | nil => simp only [parseExpLoopF]; exact List.suffix_refl _
      | cons op rest =>
        simp only [parseExpLoopF]
        rcases hp : parseTermF f grid vis rest with ⟨pv, pt⟩
        have hsub : pt <:+ rest := by have := ihT rest; rw [hp] at this; exact this
        simp only [hp]
        split
        · cases pv with
          | none => exact hsub.trans (List.suffix_cons op rest)
          | some rv =>
            exact ((ihEL _ pt).trans hsub).trans (List.suffix_cons op rest)
        · exact List.suffix_refl _
    · intro toks
      simp only [parseTermF]
      rcases hp : parseUnaryF f grid vis toks with ⟨pv, pt⟩
      have hsub : pt <:+ toks := by have := ihU toks; rw [hp] at this; exact this
      simp only [hp]
      cases pv with
      | none => exact hsub
      | some lv => exact (ihTL lv pt).trans hsub
    · intro left toks
      cases toks with
      | nil => simp only [parseTermLoopF]; exact List.suffix_refl _
      | cons op rest =>
        simp only [parseTermLoopF]
        rcases hp : parseUnaryF f grid vis rest with ⟨pv, pt⟩
        have hsub : pt <:+ rest := by have := ihU rest; rw [hp] at this; exact this
        simp only [hp]
        split
        · cases pv with
          | none => exact hsub.trans (List.suffix_cons op rest)
          | some rv =>
            exact ((ihTL _ pt).trans hsub).trans (List.suffix_cons op rest)
        · exact List.suffix_refl _
    · intro toks
      cases toks with
      | nil => simp only [parseUnaryF]; exact ihP []
      | cons op rest =>
        simp only [parseUnaryF]
        split
        · rcases hp : parseUnaryF f grid vis rest with ⟨pv, pt⟩
          have hsub : pt <:+ rest := by have := ihU rest; rw [hp] at this; exact this
          simp only [hp]
          split <;> (try split) <;> (try split) <;>
            exact hsub.trans (List.suffix_cons op rest)
        · exact ihP (op :: rest)
    · intro toks
      cases toks with
      | nil => simp only [parsePrimaryF]; exact List.suffix_refl _
      | cons t rest =>
        simp only [parsePrimaryF]
        split
        · rcases hp : parseExpressionF f grid vis rest with ⟨pv, pt⟩
          have hsub : pt <:+ rest := by have := ihE rest; rw [hp] at this; exact this
          simp only [hp]
          split <;> (try split) <;>
            first
              | exact hsub.trans (List.suffix_cons t rest)
              | exact ((List.tail_suffix pt).trans hsub).trans (List.suffix_cons t rest)
        · split
          · split
            · exact List.suffix_cons t rest
            · split
              · split
                · exact List.suffix_cons t rest
                · exact List.suffix_cons t rest
              · exact List.suffix_cons t rest
          · split
            · split
              · exact ((collectArgs_suffix _ _).trans (List.tail_suffix rest)).trans
                  (List.suffix_cons t rest)
              · exact List.suffix_cons t rest
            · split
              · exact List.suffix_cons t rest
              · exact List.suffix_refl _

/-! ## Helper lemmas: completed evaluations are stable under more fuel -/

theorem evalMono : ∀ fuel,
    (∀ F G r c vis s, evalFormulaFuel fuel F G r c vis = some s →
      evalFormulaFuel (fuel + 1) F G r c vis = some s) ∧
    (∀ G vis toks v, (parseExpressionF fuel G vis toks).1 = some v →
      parseExpressionF (fuel + 1) G vis toks = (some v, (parseExpressionF fuel G vis toks).2)) ∧
    (∀ G vis left toks v, (parseExpLoopF fuel G vis left toks).1 = some v →
      parseExpLoopF (fuel + 1) G vis left toks =
        (some v, (parseExpLoopF fuel G vis left toks).2)) ∧
    (∀ G vis toks v, (parseTermF fuel G vis toks).1 = some v →
      parseTermF (fuel + 1) G vis toks = (some v, (parseTermF fuel G vis toks).2)) ∧
    (∀ G vis left toks v, (parseTermLoopF fuel G vis left toks).1 = some v →
      parseTermLoopF (fuel + 1) G vis left toks =
        (some v, (parseTermLoopF fuel G vis left toks).2)) ∧
    (∀ G vis toks v, (parseUnaryF fuel G vis toks).1 = some v →
      parseUnaryF (fuel + 1) G vis toks = (some v, (parseUnaryF fuel G vis toks).2)) ∧
    (∀ G vis toks v, (parsePrimaryF fuel G vis toks).1 = some v →
      parsePrimaryF (fuel + 1) G vis toks = (some v, (parsePrimaryF fuel G vis toks).2)) := by
  intro fuel
  induction fuel with
  | zero =>
    refine ⟨?_, ?_, ?_, ?_, ?_, ?_, ?_⟩ <;> intros <;>
      simp_all [evalFormulaFuel, parseExpressionF, parseExpLoopF, parseTermF, parseTermLoopF,
        parseUnaryF, parsePrimaryF]
  | succ f ih =>
    obtain ⟨ihEv, ihE, ihEL, ihT, ihTL, ihU, ihP⟩ := ih
    refine ⟨?_, ?_, ?_, ?_, ?_, ?_, ?_⟩
    · intro F G r c vis s h
      simp only [evalFormulaFuel] at h ⊢
      split at h
      · next hc => rw [if_pos hc]; exact h
      · next hc =>
        rw [if_neg hc]
        split at h
        · next hemp => rw [if_pos hemp]; exact h
        · next hemp =>
          rw [if_neg hemp]
          split at h
          · next hburn => rw [if_pos hburn]; exact h
          · next hburn =>
            rw [if_neg hburn]
            split at h
            · next nb heq => exact h
            · next heq =>
              split at h
              · next heq2 => exact h
              · next tokens heq2 => rw [ihE _ _ _ _ h]
    · intro G vis toks v h
      simp only [parseExpressionF] at h ⊢
      rcases hp : parseTermF f G vis toks with ⟨pv, pt⟩
      cases pv with
      | none => rw [hp] at h; simp at h
      | some lv =>
        rw [hp] at h
        have h1 : (parseTermF f G vis toks).1 = some lv := by rw [hp]
        have h2 := ihT G vis toks lv h1
        rw [hp] at h2
        rw [h2]
        show parseExpLoopF (f + 1) G vis lv pt = (some v, (parseExpLoopF f G vis lv pt).2)
        exact ihEL G vis lv pt v h
    · intro G vis left toks v h
      cases toks with
      | nil =>
        rw [parseExpLoopF]
        simp only [parseExpLoopF] at h
        have hR : parseExpLoopF (f + 1) G vis left [] =
            ((some left : Option String), ([] : List String)) := by
          simp only [parseExpLoopF]
        rw [hR]
        exact congrArg (fun o => (o, ([] : List String))) h
      | cons op rest =>
        rw [parseExpLoopF]
        simp only [parseExpLoopF] at h
        split at h
        · next hop =>
          rw [if_pos hop]
          rcases hp : parseTermF f G vis rest with ⟨pv, pt⟩
          cases pv with
          | none => rw [hp] at h; simp at h
          | some rv =>
            rw [hp] at h
            have h1 : (parseTermF f G vis rest).1 = some rv := by rw [hp]
            have h2 := ihT G vis rest rv h1
            rw [hp] at h2
            rw [h2]
            have hR : parseExpLoopF (f + 1) G vis left (op :: rest) =
                parseExpLoopF f G vis (applyOp left rv op) pt := by
              simp only [parseExpLoopF]
              rw [if_pos hop, hp]
            rw [hR]
            show parseExpLoopF (f + 1) G vis (applyOp left rv op) pt =
              (some v, (parseExpLoopF f G vis (applyOp left rv op) pt).2)
            exact ihEL G vis (applyOp left rv op) pt v h
        · next hop =>
          rw [if_neg hop]
          have hR : parseExpLoopF (f + 1) G vis left (op :: rest) =
              ((some left : Option String), op :: rest) := by
            simp only [parseExpLoopF]
            rw [if_neg hop]
          rw [hR]
          exact congrArg (fun o => (o, op :: rest)) h
    · intro G vis toks v h
      simp only [parseTermF] at h ⊢
      rcases hp : parseUnaryF f G vis toks with ⟨pv, pt⟩
      cases pv with
      | none => rw [hp] at h; simp at h
      | some lv =>
        rw [hp] at h
        have h1 : (parseUnaryF f G vis toks).1 = some lv := by rw [hp]
        have h2 := ihU G vis toks lv h1
        rw [hp] at h2
        rw [h2]
        show parseTermLoopF (f + 1) G vis lv pt = (some v, (parseTermLoopF f G vis lv pt).2)
        exact ihTL G vis lv pt v h
    · intro G vis left toks v h
      cases toks with
      | nil =>
        rw [parseTermLoopF]
        simp only [parseTermLoopF] at h
        have hR : parseTermLoopF (f + 1) G vis left [] =
            ((some left : Option String), ([] : List String)) := by
          simp only [parseTermLoopF]
        rw [hR]
        exact congrArg (fun o => (o, ([] : List String))) h
      | cons op rest =>
        rw [parseTermLoopF]
        simp only [parseTermLoopF] at h
        split at h
        · next hop =>
          rw [if_pos hop]
          rcases hp : parseUnaryF f G vis rest with ⟨pv, pt⟩
          cases pv with
          | none => rw [hp] at h; simp at h
          | some rv =>
            rw [hp] at h
            have h1 : (parseUnaryF f G vis rest).1 = some rv := by rw [hp]
            have h2 := ihU G vis rest rv h1
            rw [hp] at h2
            rw [h2]
            have hR : parseTermLoopF (f + 1) G vis left (op :: rest) =
                parseTermLoopF f G vis (applyOp left rv op) pt := by
              simp only [parseTermLoopF]
              rw [if_pos hop, hp]
            rw [hR]
            show parseTermLoopF (f + 1) G vis (applyOp left rv op) pt =
              (some v, (parseTermLoopF f G vis (applyOp left rv op) pt).2)
            exact ihTL G vis (applyOp left rv op) pt v h
        · next hop =>
          rw [if_neg hop]
          have hR : parseTermLoopF (f + 1) G vis left (op :: rest) =
              ((some left : Option String), op :: rest) := by
            simp only [parseTermLoopF]
            rw [if_neg hop]
          rw [hR]
          exact congrArg (fun o => (o, op :: rest)) h
    · intro G vis toks v h
      cases toks with
      | nil =>
        rw [parseUnaryF]
        simp only [parseUnaryF] at h
        have hR : parseUnaryF (f + 1) G vis ([] : List String) =
            parsePrimaryF f G vis [] := by
          simp only [parseUnaryF]
        rw [hR]
        exact ihP G vis [] v h
      | cons op rest =>
        rw [parseUnaryF]
        simp only [parseUnaryF] at h
        split at h
        · next hop =>
          rw [if_pos hop]
          rcases hp : parseUnaryF f G vis rest with ⟨pv, pt⟩
          cases pv with
          | none => rw [hp] at h; simp at h
          | some w =>
            rw [hp] at h
            have h1 : (parseUnaryF f G vis rest).1 = some w := by rw [hp]
            have h2 := ihU G vis rest w h1
            rw [hp] at h2
            rw [h2]
            have hR : parseUnaryF (f + 1) G vis (op :: rest) =
                (if (!isNumeric w) = true then ((some "#ERROR:VALUE" : Option String), pt)
                  else if op = "-" then (some (numToString (jneg (jsNumber w))), pt)
                  else (some (numToString (jsNumber w)), pt)) := by
              simp only [parseUnaryF]
              rw [if_pos hop, hp]
            rw [hR]
            show (if (!isNumeric w) = true then ((some "#ERROR:VALUE" : Option String), pt)
                  else if op = "-" then (some (numToString (jneg (jsNumber w))), pt)
                  else (some (numToString (jsNumber w)), pt)) =
              (some v,
                (if (!isNumeric w) = true then ((some "#ERROR:VALUE" : Option String), pt)
                  else if op = "-" then (some (numToString (jneg (jsNumber w))), pt)
                  else (some (numToString (jsNumber w)), pt)).2)
            have h3 : (if (!isNumeric w) = true then ((some "#ERROR:VALUE" : Option String), pt)
                  else if op = "-" then (some (numToString (jneg (jsNumber w))), pt)
                  else (some (numToString (jsNumber w)), pt)).1 = some v := h
            split_ifs at h3 ⊢ <;> exact congrArg (fun o => (o, pt)) h3
        · next hop =>
          rw [if_neg hop]
          have hR : parseUnaryF (f + 1) G vis (op :: rest) =
              parsePrimaryF f G vis (op :: rest) := by
            simp only [parseUnaryF]
            rw [if_neg hop]
          rw [hR]
          exact ihP G vis (op :: rest) v h
    · intro G vis toks v h
      cases toks with
      | nil =>
        conv_lhs => rw [parsePrimaryF]
        simp only [parsePrimaryF] at h
        have hR : parsePrimaryF (f + 1) G vis ([] : List String) =
            ((some "#ERROR" : Option String), ([] : List String)) := by
          simp only [parsePrimaryF]
        rw [hR]
        exact congrArg (fun o => (o, ([] : List String))) h
      | cons t rest =>
        conv_lhs => rw [parsePrimaryF]
        simp only [parsePrimaryF] at h
        split at h
        · next ht =>
          rw [if_pos ht]
          rcases hp : parseExpressionF f G vis rest with ⟨pv, pt⟩
          cases pv with
          | none => rw [hp] at h; simp at h
          | some w =>
            rw [hp] at h
            have h1 : (parseExpressionF f G vis rest).1 = some w := by rw [hp]
            have h2 := ihE G vis rest w h1
            rw [hp] at h2
            rw [h2]
            have hR : parsePrimaryF (f + 1) G vis (t :: rest) =
                (if pt.head? = some ")" then ((some w : Option String), pt.tail)
                  else (some "#ERROR", pt)) := by
              simp only [parsePrimaryF]
              rw [if_pos ht, hp]
            rw [hR]
            show (if pt.head? = some ")" then ((some w : Option String), pt.tail)
                  else (some "#ERROR", pt)) =
              (some v, (if pt.head? = some ")" then ((some w : Option String), pt.tail)
                  else (some "#ERROR", pt)).2)
            have h3 : (if pt.head? = some ")" then ((some w : Option String), pt.tail)
                  else (some "#ERROR", pt)).1 = some v := h
            split_ifs at h3 ⊢
            · exact congrArg (fun o => (o, pt.tail)) h3
            · exact congrArg (fun o => (o, pt)) h3
        · next ht =>
          rw [if_neg ht]
          split at h
          · next hcr =>
            rw [if_pos hcr]
            split at h
            · next haddr =>
              have hR : parsePrimaryF (f + 1) G vis (t :: rest) =
                  ((some "#ERROR:REF" : Option String), rest) := by
                simp only [parsePrimaryF]
                rw [if_neg ht, if_pos hcr, haddr]
              rw [hR]
              exact congrArg (fun o => (o, rest)) h
            · next rc haddr =>
              split at h
              · next heq =>
                rw [if_pos heq]
                rcases hev : evalFormulaFuel f (getCellRawValue G rc.1 rc.2) G
                    (rc.1 : Int) (rc.2 : Int) vis with _ | w
                · rw [hev] at h; simp at h
                · rw [hev] at h
                  have h2 := ihEv _ G (rc.1 : Int) (rc.2 : Int) vis w hev
                  rw [h2]
                  have hR : parsePrimaryF (f + 1) G vis (t :: rest) =
                      ((some w : Option String), rest) := by
                    simp only [parsePrimaryF]
                    rw [if_neg ht, if_pos hcr, haddr]
                    dsimp only
                    rw [if_pos heq, hev]
                  rw [hR]
                  exact congrArg (fun o => (o, rest)) h
              · next heq =>
                rw [if_neg heq]
                have hR : parsePrimaryF (f + 1) G vis (t :: rest) =
                    ((some (getCellRawValue G rc.1 rc.2) : Option String), rest) := by
                  simp only [parsePrimaryF]
                  rw [if_neg ht, if_pos hcr, haddr]
                  dsimp only
                  rw [if_neg heq]
                rw [hR]
                exact congrArg (fun o => (o, rest)) h
          · next hcr =>
            rw [if_neg hcr]
            split at h
            · next hup =>
              rw [if_pos hup]
              split at h
              · next hhd =>
                rw [if_pos hhd]
                have hR : parsePrimaryF (f + 1) G vis (t :: rest) =
                    ((some (evaluateFunction t
                        (splitOnChar ',' (String.join (collectArgs rest.tail 1).1)) G) :
                      Option String), (collectArgs rest.tail 1).2) := by
                  simp only [parsePrimaryF]
                  rw [if_neg ht, if_neg hcr, if_pos hup, if_pos hhd]
                rw [hR]
                exact congrArg (fun o => (o, (collectArgs rest.tail 1).2)) h
              · next hhd =>
                rw [if_neg hhd]
                have hR : parsePrimaryF (f + 1) G vis (t :: rest) =
                    ((some "#ERROR" : Option String), rest) := by
                  simp only [parsePrimaryF]
                  rw [if_neg ht, if_neg hcr, if_pos hup, if_neg hhd]
                rw [hR]
                exact congrArg (fun o => (o, rest)) h
            · next hup =>
              rw [if_neg hup]
              split at h
              · next hdd =>
                rw [if_pos hdd]
                have hR : parsePrimaryF (f + 1) G vis (t :: rest) =
                    ((some t : Option String), rest) := by
                  simp only [parsePrimaryF]
                  rw [if_neg ht, if_neg hcr, if_neg hup, if_pos hdd]
                rw [hR]
                exact congrArg (fun o => (o, rest)) h
              · next hdd =>
                rw [if_neg hdd]
                have hR : parsePrimaryF (f + 1) G vis (t :: rest) =
                    ((some "#ERROR" : Option String), t :: rest) := by
                  simp only [parsePrimaryF]
                  rw [if_neg ht, if_neg hcr, if_neg hup, if_neg hdd]
                rw [hR]
                exact congrArg (fun o => (o, t :: rest)) h

/-! ## Helper lemmas: the fuel budget -/

theorem keyList_nodup (G : Grid) : (keyList G).Nodup := by
  refine List.Nodup.map ?_ (List.Nodup.product (List.nodup_range _) (List.nodup_range _))
  intro p q h
  simp only [Prod.mk.injEq, Nat.cast_inj] at h
  exact Prod.ext h.1 h.2

theorem mem_keyList {G : Grid} {r c : Nat} (hr : r < G.length)
    (hc : c < (G.headD []).length) : ((r : Int), (c : Int)) ∈ keyList G := by
  simp only [keyList, List.mem_map]
  exact ⟨(r, c), List.pair_mem_product.mpr ⟨List.mem_range.mpr hr, List.mem_range.mpr hc⟩, rfl⟩

theorem budget_mono (G : Grid) (k : Int × Int) (vis : List (Int × Int)) :
    budget G (k :: vis) ≤ budget G vis := by
  unfold budget
  refine List.Sublist.sum_le_sum (List.Sublist.map _ ?_) (fun a _ => Nat.zero_le a)
  refine List.monotone_filter_right _ ?_
  intro x hx
  simp only [decide_eq_true_eq] at hx ⊢
  exact fun hmem => hx (List.mem_cons_of_mem k hmem)

theorem filter_sum_extract {w : Int × Int → Nat} :
    ∀ (l : List (Int × Int)), l.Nodup → ∀ (k : Int × Int) (vis : List (Int × Int)),
      k ∈ l → k ∉ vis →
      ((l.filter (fun x => decide (x ∉ vis))).map w).sum =
        w k + ((l.filter (fun x => decide (x ∉ (k :: vis)))).map w).sum := by
  intro l
  induction l with
  | nil => intro _ k vis hk; simp at hk
  | cons a l ih =>
    intro hnd k vis hk hnv
    have hal : a ∉ l := (List.nodup_cons.mp hnd).1
    have hnd2 : l.Nodup := (List.nodup_cons.mp hnd).2
    rcases List.mem_cons.mp hk with rfl | hk2
    · rw [List.filter_cons, List.filter_cons]
      rw [if_pos (by simp [hnv]), if_neg (by simp)]
      have hfeq : l.filter (fun x => decide (x ∉ vis)) =
          l.filter (fun x => decide (x ∉ (k :: vis))) := by
        apply List.filter_congr
        intro x hx
        have hxk : x ≠ k := fun hxx => hal (hxx ▸ hx)
        simp [List.mem_cons, hxk]
      rw [hfeq]
      simp [List.map_cons, List.sum_cons]
    · have hak : a ≠ k := fun haa => hal (haa ▸ hk2)
      rw [List.filter_cons, List.filter_cons]
      by_cases hav : a ∈ vis
      · rw [if_neg (by simp [hav]), if_neg (by simp [List.mem_cons, hav])]
        exact ih hnd2 k vis hk2 hnv
      · rw [if_pos (by simp [hav]), if_pos (by simp [List.mem_cons, hak, hav])]
        simp only [List.map_cons, List.sum_cons]
        rw [ih hnd2 k vis hk2 hnv]
        omega

theorem budget_extract {G : Grid} {k : Int × Int} {vis : List (Int × Int)}
    (hk : k ∈ keyList G) (hnv : k ∉ vis) :
    budget G vis = cellWeight G k + budget G (k :: vis) :=
  filter_sum_extract (keyList G) (keyList_nodup G) k vis hk hnv

theorem cellWeight_coe (G : Grid) (r c : Nat) :
    cellWeight G ((r : Int), (c : Int)) = 8 * (getCellRawValue G r c).length + 16 := by
  simp [cellWeight]

theorem parseCellAddress_lt {label : String} {mr mc r c : Nat}
    (h : parseCellAddress label mr mc = some (r, c)) : r < mr ∧ c < mc := by
  unfold parseCellAddress at h
  dsimp only at h
  rcases hm : addrMatch (jsToUpper (jsTrim label)).data with _ | ⟨cp, rp⟩
  · rw [hm] at h; simp at h
  · rw [hm] at h
    dsimp only at h
    split at h
    · simp at h
    · next hcond =>
      simp only [Option.some.injEq, Prod.mk.injEq] at h
      simp only [Bool.or_eq_true, decide_eq_true_eq, not_or, not_le] at hcond
      obtain ⟨h1, h2⟩ := h
      omega

theorem evalSuff : ∀ fuel,
    (∀ F G r c vis, 1 ≤ fuel →
      (((r, c) ∉ vis) → budget G ((r, c) :: vis) + 8 * F.length + 17 ≤ fuel) →
      (evalFormulaFuel fuel F G r c vis).isSome = true) ∧
    (∀ G vis toks, 8 * toks.length + 7 + budget G vis ≤ fuel →
      (parseExpressionF fuel G vis toks).1.isSome = true) ∧
    (∀ G vis left toks, 8 * toks.length + 6 + budget G vis ≤ fuel →
      (parseExpLoopF fuel G vis left toks).1.isSome = true) ∧
    (∀ G vis toks, 8 * toks.length + 5 + budget G vis ≤ fuel →
      (parseTermF fuel G vis toks).1.isSome = true) ∧
    (∀ G vis left toks, 8 * toks.length + 4 + budget G vis ≤ fuel →
      (parseTermLoopF fuel G vis left toks).1.isSome = true) ∧
    (∀ G vis toks, 8 * toks.length + 3 + budget G vis ≤ fuel →
      (parseUnaryF fuel G vis toks).1.isSome = true) ∧
    (∀ G vis toks, 8 * toks.length + 1 + budget G vis ≤ fuel →
      (parsePrimaryF fuel G vis toks).1.isSome = true) := by
  intro fuel
  induction fuel with
  | zero => refine ⟨?_, ?_, ?_, ?_, ?_, ?_, ?_⟩ <;> intros <;> omega
  | succ f ih =>
    obtain ⟨ihEv, ihE, ihEL, ihT, ihTL, ihU, ihP⟩ := ih
    refine ⟨?_, ?_, ?_, ?_, ?_, ?_, ?_⟩
    · -- evalFormulaFuel
      intro F G r c vis _ h2
      simp only [evalFormulaFuel]
      split
      · simp
      · next hc =>
        simp only [decide_eq_true_eq] at hc
        have hbud := h2 hc
        split
        · simp
        · split
          · simp
          · split
            · simp
            · split
              · simp
              · next tokens heq2 =>
                refine ihE _ _ _ ?_
                have hlen : tokens.length ≤ (jsTrim (stripLeadingEq (jsTrim F))).length :=
                  tokenize_length heq2
                have hexpr := exprOf_length F
                omega
    · -- parseExpressionF
      intro G vis toks h
      simp only [parseExpressionF]
      rcases hp : parseTermF f G vis toks with ⟨pv, pt⟩
      have hT : (parseTermF f G vis toks).1.isSome = true := by
        refine ihT _ _ _ ?_
        omega
      rw [hp] at hT
      cases pv with
      | none => simp at hT
      | some lv =>
        show (parseExpLoopF f G vis lv pt).1.isSome = true
        refine ihEL _ _ _ _ ?_
        have hs : pt <:+ toks := by
          have := (parseSuffix f G vis).2.2.1 toks
          rw [hp] at this
          exact this
        have hlen := hs.sublist.length_le
        omega
    · -- parseExpLoopF
      intro G vis left toks h
      cases toks with
      | nil => simp [parseExpLoopF]
      | cons op rest =>
        simp only [parseExpLoopF]
        split
        · rcases hp : parseTermF f G vis rest with ⟨pv, pt⟩
          simp only [List.length_cons] at h
          have hT : (parseTermF f G vis rest).1.isSome = true := by
            refine ihT _ _ _ ?_
            omega
          rw [hp] at hT
          cases pv with
          | none => simp at hT
          | some rv =>
            show (parseExpLoopF f G vis (applyOp left rv op) pt).1.isSome = true
            refine ihEL _ _ _ _ ?_
            have hs : pt <:+ rest := by
              have := (parseSuffix f G vis).2.2.1 rest
              rw [hp] at this
              exact this
            have hlen := hs.sublist.length_le
            omega
        · simp
    · -- parseTermF
      intro G vis toks h
      simp only [parseTermF]
      rcases hp : parseUnaryF f G vis toks with ⟨pv, pt⟩
      have hU : (parseUnaryF f G vis toks).1.isSome = true := by
        refine ihU _ _ _ ?_
        omega
      rw [hp] at hU
      cases pv with
      | none => simp at hU
      | some lv =>
        show (parseTermLoopF f G vis lv pt).1.isSome = true
        refine ihTL _ _ _ _ ?_
        have hs : pt <:+ toks := by
          have := (parseSuffix f G vis).2.2.2.2.1 toks
          rw [hp] at this
          exact this
        have hlen := hs.sublist.length_le
        omega
    · -- parseTermLoopF
      intro G vis left toks h
      cases toks with
      | nil => simp [parseTermLoopF]
      | cons op rest =>
        simp only [parseTermLoopF]
        split
        · rcases hp : parseUnaryF f G vis rest with ⟨pv, pt⟩
          simp only [List.length_cons] at h
          have hU : (parseUnaryF f G vis rest).1.isSome = true := by
            refine ihU _ _ _ ?_
            omega
          rw [hp] at hU
          cases pv with
          | none => simp at hU
          | some rv =>
            show (parseTermLoopF f G vis (applyOp left rv op) pt).1.isSome = true
            refine ihTL _ _ _ _ ?_
            have hs : pt <:+ rest := by
              have := (parseSuffix f G vis).2.2.2.2.1 rest
              rw [hp] at this
              exact this
            have hlen := hs.sublist.length_le
            omega
        · simp
    · -- parseUnaryF
      intro G vis toks h
      cases toks with
      | nil =>
        simp only [parseUnaryF]
        refine ihP _ _ _ ?_
        simp only [List.length_nil] at h ⊢
        omega
      | cons op rest =>
        simp only [parseUnaryF]
        split
        · rcases hp : parseUnaryF f G vis rest with ⟨pv, pt⟩
          simp only [List.length_cons] at h
          have hU : (parseUnaryF f G vis rest).1.isSome = true := by
            refine ihU _ _ _ ?_
            omega
          rw [hp] at hU
          cases pv with
          | none => simp at hU
          | some v =>
            dsimp only
            split <;> (try split) <;> simp
        · refine ihP _ _ _ ?_
          simp only [List.length_cons] at h ⊢
          omega
    · -- parsePrimaryF
      intro G vis toks h
      cases toks with
      | nil => simp [parsePrimaryF]
      | cons t rest =>
        simp only [parsePrimaryF]
        split
        · rcases hp : parseExpressionF f G vis rest with ⟨pv, pt⟩
          simp only [List.length_cons] at h
          have hE : (parseExpressionF f G vis rest).1.isSome = true := by
            refine ihE _ _ _ ?_
            omega
          rw [hp] at hE
          cases pv with
          | none => simp at hE
          | some v =>
            dsimp only
            split <;> simp
        · split
          · split
            · simp
            · next rc haddr =>
              split
              · simp only [List.length_cons] at h
                obtain ⟨hr, hc2⟩ := parseCellAddress_lt haddr
                have hsome : (evalFormulaFuel f (getCellRawValue G rc.1 rc.2) G
                    (rc.1 : Int) (rc.2 : Int) vis).isSome = true := by
                  refine ihEv _ _ _ _ _ ?_ ?_
                  · omega
                  · intro hnv
                    have hext := budget_extract (mem_keyList hr hc2) hnv
                    rw [cellWeight_coe] at hext
                    omega
                obtain ⟨w, hw⟩ := Option.isSome_iff_exists.mp hsome
                rw [hw]
                simp
              · simp
          · split
            · split <;> simp
            · split <;> simp

/-! ## Helper lemmas: result classification of the recursive evaluator -/

theorem upper_not_digitDot {c : Char} (h : isUpperAZ c = true) : isDigitDot c = false := by
  cases hd : isDigitDot c with
  | false => rfl
  | true =>
    exfalso
    simp only [isUpperAZ, Bool.and_eq_true, decide_eq_true_eq] at h
    simp only [isDigitDot, isDigitCh, Bool.or_eq_true, Bool.and_eq_true, decide_eq_true_eq,
      beq_iff_eq] at hd
    rcases hd with ⟨h1, h2⟩ | rfl
    · omega
    · exact absurd h (by decide)

theorem tokOK_digit_head {t : String} (h : tokOK t = true)
    (hd : isDigitDot (t.data.headD ' ') = true) :
    t.data ≠ [] ∧ t.data.all isDigitDot = true := by
  unfold tokOK at h
  simp only [Bool.or_eq_true, Bool.and_eq_true, decide_eq_true_eq, Bool.not_eq_true'] at h
  rcases h with (h1 | h2) | h3
  · -- the six single-symbol tokens: their head is not [0-9.]
    exfalso
    rcases h1 with ((((rfl | rfl) | rfl) | rfl) | rfl) | rfl <;> exact absurd hd (by decide)
  · -- a digits-and-dots run
    refine ⟨?_, h2.2⟩
    intro hnil
    have := h2.1
    rw [hnil] at this
    simp at this
  · -- an identifier: its head is an uppercase letter, not [0-9.]
    exfalso
    cases ht : t.data with
    | nil => rw [ht] at h3; simp at h3
    | cons c cs =>
      rw [ht] at h3 hd
      simp only [Bool.and_eq_true] at h3
      have := upper_not_digitDot h3.1
      simp only [List.headD_cons] at hd
      rw [hd] at this
      exact absurd this (by decide)

theorem TokWF_suffix {toks pt : List String} (hw : TokWF toks) (hs : pt <:+ toks) :
    TokWF pt :=
  fun t ht => hw t (hs.sublist.subset ht)

theorem getCellRawValue_inbounds {G : Grid} {r c : Nat} (hr : r < G.length)
    (hc : c < (G.headD []).length) :
    getCellRawValue G r c = (G.getD r []).getD c "" := by
  unfold getCellRawValue
  rw [if_neg (by omega), if_neg (by omega)]

theorem evalClassify : ∀ fuel,
    (∀ F G r c vis s, evalFormulaFuel fuel F G r c vis = some s → ResultShape G s) ∧
    (∀ G vis toks v, TokWF toks →
      (parseExpressionF fuel G vis toks).1 = some v → ResultShape G v) ∧
    (∀ G vis left toks v, ResultShape G left → TokWF toks →
      (parseExpLoopF fuel G vis left toks).1 = some v → ResultShape G v) ∧
    (∀ G vis toks v, TokWF toks →
      (parseTermF fuel G vis toks).1 = some v → ResultShape G v) ∧
    (∀ G vis left toks v, ResultShape G left → TokWF toks →
      (parseTermLoopF fuel G vis left toks).1 = some v → ResultShape G v) ∧
    (∀ G vis toks v, TokWF toks →
      (parseUnaryF fuel G vis toks).1 = some v → ResultShape G v) ∧
    (∀ G vis toks v, TokWF toks →
      (parsePrimaryF fuel G vis toks).1 = some v → ResultShape G v) := by
  intro fuel
  induction fuel with
  | zero =>
    refine ⟨?_, ?_, ?_, ?_, ?_, ?_, ?_⟩ <;> intros <;>
      simp_all [evalFormulaFuel, parseExpressionF, parseExpLoopF, parseTermF, parseTermLoopF,
        parseUnaryF, parsePrimaryF]
  | succ f ih =>
    obtain ⟨ihEv, ihE, ihEL, ihT, ihTL, ihU, ihP⟩ := ih
    refine ⟨?_, ?_, ?_, ?_, ?_, ?_, ?_⟩
    · -- evalFormulaFuel
      intro F G r c vis s h
      simp only [evalFormulaFuel] at h
      split at h
      · rw [Option.some.injEq] at h
        subst h
        exact Or.inr (Or.inl (by decide))
      · split at h
        · rw [Option.some.injEq] at h
          subst h
          exact Or.inr (Or.inr (Or.inl rfl))
        · split at h
          · rw [Option.some.injEq] at h
            subst h
            exact Or.inr (Or.inr (Or.inl rfl))
          · split at h
            · next nb hfm =>
              rw [Option.some.injEq] at h
              subst h
              exact ValShape_ResultShape (evaluateFunction_shape nb.1 (splitOnChar ',' nb.2) G)
            · split at h
              · rw [Option.some.injEq] at h
                subst h
                exact Or.inr (Or.inl (by decide))
              · next tokens htok =>
                exact ihE G ((r, c) :: vis) tokens s (tokenize_wf htok) h
    · -- parseExpressionF
      intro G vis toks v hw h
      simp only [parseExpressionF] at h
      rcases hp : parseTermF f G vis toks with ⟨pv, pt⟩
      rw [hp] at h
      cases pv with
      | none => simp at h
      | some lv =>
        have hlv : ResultShape G lv := ihT G vis toks lv hw (by rw [hp])
        have hwpt : TokWF pt := TokWF_suffix hw (by
          have := (parseSuffix f G vis).2.2.1 toks
          rw [hp] at this
          exact this)
        exact ihEL G vis lv pt v hlv hwpt h
    · -- parseExpLoopF
      intro G vis left toks v hl hw h
      cases toks with
      | nil =>
        simp only [parseExpLoopF] at h
        have h2 : some left = some v := h
        rw [Option.some.injEq] at h2
        exact h2 ▸ hl
      | cons op rest =>
        have hwrest : TokWF rest := fun x hx => hw x (List.mem_cons_of_mem _ hx)
        simp only [parseExpLoopF] at h
        split at h
        · rcases hp : parseTermF f G vis rest with ⟨pv, pt⟩
          rw [hp] at h
          cases pv with
          | none => simp at h
          | some rv =>
            have hwpt : TokWF pt := TokWF_suffix hwrest (by
              have := (parseSuffix f G vis).2.2.1 rest
              rw [hp] at this
              exact this)
            have hop : ResultShape G (applyOp left rv op) :=
              ValShape_ResultShape (applyOp_shape left rv op)
            exact ihEL G vis _ pt v hop hwpt h
        · have h2 : some left = some v := h
          rw [Option.some.injEq] at h2
          exact h2 ▸ hl
    · -- parseTermF
      intro G vis toks v hw h
      simp only [parseTermF] at h
      rcases hp : parseUnaryF f G vis toks with ⟨pv, pt⟩
      rw [hp] at h
      cases pv with
      | none => simp at h
      | some lv =>
        have hlv : ResultShape G lv := ihU G vis toks lv hw (by rw [hp])
        have hwpt : TokWF pt := TokWF_suffix hw (by
          have := (parseSuffix f G vis).2.2.2.2.1 toks
          rw [hp] at this
          exact this)
        exact ihTL G vis lv pt v hlv hwpt h
    · -- parseTermLoopF
      intro G vis left toks v hl hw h
      cases toks with
      | nil =>
        simp only [parseTermLoopF] at h
        have h2 : some left = some v := h
        rw [Option.some.injEq] at h2
        exact h2 ▸ hl
      | cons op rest =>
        have hwrest : TokWF rest := fun x hx => hw x (List.mem_cons_of_mem _ hx)
        simp only [parseTermLoopF] at h
        split at h
        · rcases hp : parseUnaryF f G vis rest with ⟨pv, pt⟩
          rw [hp] at h
          cases pv with
          | none => simp at h
          | some rv =>
            have hwpt : TokWF pt := TokWF_suffix hwrest (by
              have := (parseSuffix f G vis).2.2.2.2.1 rest
              rw [hp] at this
              exact this)
            have hop : ResultShape G (applyOp left rv op) :=
              ValShape_ResultShape (applyOp_shape left rv op)
            exact ihTL G vis _ pt v hop hwpt h
        · have h2 : some left = some v := h
          rw [Option.some.injEq] at h2
          exact h2 ▸ hl
    · -- parseUnaryF
      intro G vis toks v hw h
      cases toks with
      | nil =>
        simp only [parseUnaryF] at h
        exact ihP G vis [] v hw h
      | cons op rest =>
        simp only [parseUnaryF] at h
        split at h
        · rcases hp : parseUnaryF f G vis rest with ⟨pv, pt⟩
          rw [hp] at h
          cases pv with
          | none => simp at h
          | some w =>
            dsimp only at h
            split at h
            · have h2 : some "#ERROR:VALUE" = some v := h
              rw [Option.some.injEq] at h2
              exact h2 ▸ Or.inr (Or.inl (by decide))
            · next hnn =>
              have hwn : isNumeric w = true := by
                simpa using hnn
              have hq := isNumeric_jsNumber hwn
              split at h
              · have h2 : some (numToString (jneg (jsNumber w))) = some v := h
                rw [Option.some.injEq] at h2
                exact h2 ▸ Or.inl (isNumeric_numToString_fin
                  (by simpa [jneg] using hq.1) (by simpa [jneg, Int.natAbs_neg] using hq.2))
              · have h2 : some (numToString (jsNumber w)) = some v := h
                rw [Option.some.injEq] at h2
                exact h2 ▸ Or.inl (isNumeric_numToString_fin hq.1 hq.2)
        · exact ihP G vis (op :: rest) v hw h
    · -- parsePrimaryF
      intro G vis toks v hw h
      cases toks with
      | nil =>
        simp only [parsePrimaryF] at h
        have h2 : some "#ERROR" = some v := h
        rw [Option.some.injEq] at h2
        exact h2 ▸ Or.inr (Or.inl (by decide))
      | cons t rest =>
        have hwt : tokOK t = true := hw t (List.mem_cons_self _ _)
        have hwrest : TokWF rest := fun x hx => hw x (List.mem_cons_of_mem _ hx)
        simp only [parsePrimaryF] at h
        split at h
        · rcases hp : parseExpressionF f G vis rest with ⟨pv, pt⟩
          rw [hp] at h
          cases pv with
          | none => simp at h
          | some w =>
            dsimp only at h
            split at h
            · have h2 : some w = some v := h
              rw [Option.some.injEq] at h2
              exact h2 ▸ ihE G vis rest w hwrest (by rw [hp])
            · have h2 : some "#ERROR" = some v := h
              rw [Option.some.injEq] at h2
              exact h2 ▸ Or.inr (Or.inl (by decide))
        · split at h
          · split at h
            · have h2 : some "#ERROR:REF" = some v := h
              rw [Option.some.injEq] at h2
              exact h2 ▸ Or.inr (Or.inl (by decide))
            · next rc haddr =>
              obtain ⟨hr, hc2⟩ := parseCellAddress_lt haddr
              split at h
              · rcases hev : evalFormulaFuel f (getCellRawValue G rc.1 rc.2) G
                    (rc.1 : Int) (rc.2 : Int) vis with _ | w
                · rw [hev] at h
                  simp at h
                · rw [hev] at h
                  have h2 : some w = some v := h
                  rw [Option.some.injEq] at h2
                  exact h2 ▸ ihEv _ G _ _ vis w hev
              · have h2 : some (getCellRawValue G rc.1 rc.2) = some v := h
                rw [Option.some.injEq] at h2
                refine h2 ▸ Or.inr (Or.inr (Or.inr (Or.inr (Or.inl
                  ⟨rc.1, rc.2, hr, hc2, ?_⟩))))
                exact getCellRawValue_inbounds hr hc2
          · split at h
            · split at h
              · have h2 : some (evaluateFunction t
                    (splitOnChar ',' (String.join (collectArgs rest.tail 1).1)) G) = some v := h
                rw [Option.some.injEq] at h2
                exact h2 ▸ ValShape_ResultShape (evaluateFunction_shape t
                  (splitOnChar ',' (String.join (collectArgs rest.tail 1).1)) G)
              · have h2 : some "#ERROR" = some v := h
                rw [Option.some.injEq] at h2
                exact h2 ▸ Or.inr (Or.inl (by decide))
            · split at h
              · next hdd =>
                have h2 : some t = some v := h
                rw [Option.some.injEq] at h2
                obtain ⟨hne, hall⟩ := tokOK_digit_head hwt hdd
                exact h2 ▸ Or.inr (Or.inr (Or.inr (Or.inl ⟨hne, hall⟩)))
              · have h2 : some "#ERROR" = some v := h
                rw [Option.some.injEq] at h2
                exact h2 ▸ Or.inr (Or.inl (by decide))

/-! ## Corollaries: the chosen fuel bound suffices and is stable -/

theorem evalBound_isSome (F : String) (G : Grid) (r c : Int) :
    (evalFormulaFuel (evalBound F G) F G r c []).isSome = true := by
  refine (evalSuff (evalBound F G)).1 F G r c [] ?_ ?_
  · unfold evalBound
    omega
  · intro _
    have hm := budget_mono G (r, c) []
    unfold evalBound
    omega

theorem evalFuel_le {n m : Nat} (hnm : n ≤ m) {F : String} {G : Grid} {r c : Int}
    {vis : List (Int × Int)} {s : String} (h : evalFormulaFuel n F G r c vis = some s) :
    evalFormulaFuel m F G r c vis = some s := by
  induction hnm with
  | refl => exact h
  | step _ ih => exact (evalMono _).1 _ _ _ _ _ _ ih

theorem evaluateFormula_spec (F : String) (G : Grid) (r c : Int) :
    evalFormulaFuel (evalBound F G) F G r c [] = some (evaluateFormula F G r c) := by
  obtain ⟨s, hs⟩ := Option.isSome_iff_exists.mp (evalBound_isSome F G r c)
  rw [hs]
  unfold evaluateFormula
  rw [hs]
  rfl

/-! ## The claims -/

/-- C1: cycle detection.  A cell whose key is already in the visiting set
returns the `#CYCLE` sentinel immediately (whatever remaining fuel, formula,
grid, and coordinates), and concretely the self-referencing grid `A1="=A1"`
and the mutual cycle `A1="=B1"`, `B1="=A1"` evaluate to `"#CYCLE"` from either
cell. -/
theorem claim_C1 :
    (∀ fuel F G r c vis, (r, c) ∈ vis →
      evalFormulaFuel (fuel + 1) F G r c vis = some "#CYCLE") ∧
    evaluateFormula "=A1" [["=A1"]] 0 0 = "#CYCLE" ∧
    evaluateFormula "=B1" [["=B1", "=A1"]] 0 0 = "#CYCLE" ∧
    evaluateFormula "=A1" [["=B1", "=A1"]] 0 1 = "#CYCLE" := by
  refine ⟨?_, rfl, rfl, rfl⟩
  intro fuel F G r c vis hv
  simp only [evalFormulaFuel]
  rw [if_pos (by simpa using hv)]

/-- Witness for C1's general conjunct at a concrete visiting set. -/
theorem claim_C1_witness :
    evalFormulaFuel 1 "=A1" [["=A1"]] 0 0 [(0, 0)] = some "#CYCLE" :=
  claim_C1.1 0 "=A1" [["=A1"]] 0 0 [(0, 0)] (by decide)

/-- C2 counterexample: a token stream with trailing tokens does not produce
`"#ERROR"`; the expression `=2 3` parses the leading `2` and returns it,
silently ignoring the unconsumed `3`. -/
theorem claim_C2_cex :
    evaluateFormula "=2 3" [[""]] 0 0 = "2" ∧ "2" ≠ "#ERROR" :=
  ⟨rfl, by decide⟩

/-- C2 (amended): the entry point performs no end-of-input check after
`parseExpression` returns, so whenever the expression body's token stream
parses to a value `v` — whatever unconsumed trailing tokens `rest` remain —
the formula evaluates to `v`, never to a trailing-token `"#ERROR"`; in
particular `=2 3` (trailing literal) and `=2)` (trailing parenthesis) both
evaluate to `"2"` over every grid and coordinates. -/
theorem claim_C2 :
    (∀ (F : String) (G : Grid) (r c : Int) (toks : List String) (v : String)
        (rest : List String),
      (jsTrim (stripLeadingEq (jsTrim F))).data ≠ [] →
      jsToUpper (jsTrim (stripLeadingEq (jsTrim F))) ≠ "BURNRATE()" →
      funcMatch (jsTrim (stripLeadingEq (jsTrim F))) = none →
      tokenize (jsTrim (stripLeadingEq (jsTrim F))).data = some toks →
      parseExpressionF (evalBound F G - 1) G [(r, c)] toks = (some v, rest) →
      evaluateFormula F G r c = v) ∧
    (∀ (G : Grid) (r c : Int),
      evaluateFormula "=2 3" G r c = "2" ∧ evaluateFormula "=2)" G r c = "2") := by
  refine ⟨?_, fun _ _ _ => ⟨rfl, rfl⟩⟩
  intro F G r c toks v rest h1 h2 h3 h4 h5
  unfold evaluateFormula
  obtain ⟨k, hk⟩ : ∃ k, evalBound F G = k + 1 :=
    ⟨evalBound F G - 1, by unfold evalBound; omega⟩
  have hk1 : evalBound F G - 1 = k := by omega
  rw [hk1] at h5
  rw [hk]
  rw [evalFormulaFuel]
  rw [if_neg (by simp)]
  dsimp only
  rw [if_neg (by simpa [List.isEmpty_iff] using h1), if_neg h2, h3]
  dsimp only
  rw [h4]
  dsimp only
  rw [h5]
  rfl

/-- Witness for C2's general conjunct: `=2 3` tokenizes to `["2", "3"]`, the
parser returns `"2"` leaving the unconsumed `["3"]`, and the formula result
is that `"2"`. -/
theorem claim_C2_witness : evaluateFormula "=2 3" [[""]] 0 0 = "2" :=
  claim_C2.1 "=2 3" [[""]] 0 0 ["2", "3"] "2" ["3"] (by decide) (by decide) rfl rfl rfl

/-- C3 counterexample: the empty formula body evaluates to `""`, which is
neither parseable as a number nor `#`-prefixed, refuting the claimed
two-way classification. -/
theorem claim_C3_cex :
    evaluateFormula "" [[""]] 0 0 = "" ∧ isNumeric "" = false ∧
      startsHash "" = false :=
  ⟨rfl, rfl, rfl⟩

/-- C3 (amended): every result of `evaluateFormula` is numeric text, a
`#`-prefixed sentinel, the empty string, a digits-and-dots literal token
returned verbatim, the verbatim raw value of an in-bounds grid cell, or an
overflowed `Infinity`/`-Infinity` (the last four escape the claimed
numeric-or-`#` dichotomy); concretely, adding a cell holding `9e307` to
itself overflows the IEEE-754 double range and returns `"Infinity"`. -/
theorem claim_C3 :
    (∀ (F : String) (G : Grid) (r c : Int), ResultShape G (evaluateFormula F G r c)) ∧
    evaluateFormula "=A1+A1" [["9e307"]] 0 0 = "Infinity" :=
  ⟨fun F G r c => (evalClassify _).1 F G r c [] _ (evaluateFormula_spec F G r c), rfl⟩

/-- C4 counterexample: `COUNT` over the single out-of-bounds reference `Z99`
on a 10×10 grid returns `"0"`, not `"1"`: the unparseable address is skipped
before the cell is ever resolved, so no error sentinel is counted. -/
theorem claim_C4_cex :
    evaluateFunction "COUNT" ["Z99"] (List.replicate 10 (List.replicate 10 "")) = "0" :=
  rfl

/-- C4 (amended): an argument that trims to a single cell reference whose
address does not parse within the given bounds is skipped entirely by
`processArg` — the accumulator state (numeric list and non-empty count) is
returned unchanged, so such a reference contributes nothing to any aggregate,
`COUNT` included. -/
theorem claim_C4 (G : Grid) (mr mc : Nat) (st : FuncState) (arg : String)
    (h1 : (jsTrim arg).data.isEmpty = false)
    (h2 : (jsTrim arg).data.contains ':' = false)
    (h3 : cellRefTest (jsTrim arg) = true)
    (h4 : parseCellAddress (jsTrim arg) mr mc = none) :
    processArg G mr mc st arg = st := by
  unfold processArg
  dsimp only
  rw [if_neg (by rw [h1]; simp), if_neg (by rw [h2]; simp), if_pos h3, h4]

/-- Witness for C4 at the concrete out-of-bounds reference `Z99`. -/
theorem claim_C4_witness :
    processArg (List.replicate 10 (List.replicate 10 "")) 10 10 ([], 0) "Z99" = ([], 0) :=
  claim_C4 _ 10 10 ([], 0) "Z99" rfl rfl rfl rfl

/-- C5 counterexample: function-name casing is not transparent to formula
evaluation.  `=SUM(1,2)` evaluates to `"3"` through the entry point's
case-sensitive function regex, but `=sum(1,2)` misses that regex, falls to the
tokenizer, and dies on the comma the tokenizer cannot represent, yielding
`"#ERROR"`. -/
theorem claim_C5_cex :
    evaluateFormula "=sum(1,2)" [[""]] 0 0 = "#ERROR" ∧
      evaluateFormula "=SUM(1,2)" [[""]] 0 0 = "3" :=
  ⟨rfl, rfl⟩

/-- C5 (amended): case-insensitivity holds only inside `evaluateFunction`,
whose dispatch depends on the name solely through trimming and upper-casing;
at the formula level a lower-cased call survives only when its arguments
contain no comma (the tokenizer path upper-cases the identifier but rejects
`,`), so `=sum(1)` agrees with `=SUM(1)` over every grid while `=sum(1,2)`
is always `"#ERROR"`. -/
theorem claim_C5 :
    (∀ n1 n2 args G, jsToUpper (jsTrim n1) = jsToUpper (jsTrim n2) →
      evaluateFunction n1 args G = evaluateFunction n2 args G) ∧
    (∀ (G : Grid) (r c : Int), evaluateFormula "=sum(1)" G r c = evaluateFormula "=SUM(1)" G r c) ∧
    (∀ (G : Grid) (r c : Int), evaluateFormula "=sum(1,2)" G r c = "#ERROR") := by
  refine ⟨?_, fun _ _ _ => rfl, fun _ _ _ => rfl⟩
  intro n1 n2 args G h
  unfold evaluateFunction
  dsimp only
  rw [h]

/-- Witness for C5's name-normalization conjunct at concrete casings. -/
theorem claim_C5_witness :
    evaluateFunction "sum" ["1", "2"] [] = evaluateFunction "SUM" ["1", "2"] [] :=
  claim_C5.1 "sum" "SUM" ["1", "2"] [] rfl

/-- C6 counterexample: the round trip fails under `parseCellAddress`'s default
10×10 bounds, which is what a bare `parseCellAddress(label + "1")` call uses:
column index 10 (`"K1"`) is already rejected as out of range. -/
theorem claim_C6_cex : parseCellAddress (getColumnLabel 10 ++ "1") 10 10 = none :=
  rfl

set_option maxRecDepth 8000 in
/-- C6 (amended): the address codec round trip holds on all 676 one- and
two-letter columns once the bounds admit them: for every `i < 676`,
`parseCellAddress (getColumnLabel i ++ "1") 676 676` is `some (0, i)`. -/
theorem claim_C6 : ∀ i, i < 676 →
    parseCellAddress (getColumnLabel i ++ "1") 676 676 = some (0, i) := by
  decide

/-- Witness for C6 at the two-letter column `AB`. -/
theorem claim_C6_witness :
    parseCellAddress (getColumnLabel 27 ++ "1") 676 676 = some (0, 27) :=
  claim_C6 27 (by decide)

/-- C7: termination.  The recursion through cell references is fuel-bounded by
the grid: the explicit bound `evalBound` — the total weight of all grid cells
plus the formula's own parsing weight — always suffices, and any fuel at or
above it yields the same defined result, so the evaluation is a total
function of formula, grid, and coordinates. -/
theorem claim_C7 (F : String) (G : Grid) (r c : Int) (fuel : Nat)
    (h : evalBound F G ≤ fuel) :
    evalFormulaFuel fuel F G r c [] = some (evaluateFormula F G r c) :=
  evalFuel_le h (evaluateFormula_spec F G r c)

/-- Witness for C7 at a concrete formula, grid, and fuel above the bound. -/
theorem claim_C7_witness :
    evalBound "=1+2" [[""]] ≤ 100 ∧
      evalFormulaFuel 100 "=1+2" [[""]] 0 0 [] =
        some (evaluateFormula "=1+2" [[""]] 0 0) :=
  ⟨by decide, claim_C7 "=1+2" [[""]] 0 0 100 (by decide)⟩

/-- C8: totality at the public boundary.  For every formula, grid, and
coordinates the fuelled evaluator reaches a defined result (`some`) at the
public entry point's own fuel bound — the out-of-fuel escape `none`, the only
out-of-band failure mode of the embedding, is never taken — and
`evaluateFormula` returns exactly that string. -/
theorem claim_C8 (F : String) (G : Grid) (r c : Int) :
    ∃ s : String, evalFormulaFuel (evalBound F G) F G r c [] = some s ∧
      evaluateFormula F G r c = s :=
  ⟨evaluateFormula F G r c, evaluateFormula_spec F G r c, rfl⟩

/-- C9: determinism.  Each top-level call starts from its own fresh empty
visiting set, and the evaluator is a pure function of formula, grid, and
coordinates, so two calls over identical grids return identical strings. -/
theorem claim_C9 (F : String) (G1 G2 : Grid) (r c : Int) (h : G1 = G2) :
    evaluateFormula F G1 r c = evaluateFormula F G2 r c := by
  rw [h]

/-- Witness for C9 at a concrete repeated evaluation. -/
theorem claim_C9_witness :
    evaluateFormula "=1+2" [[""]] 0 0 = evaluateFormula "=1+2" [[""]] 0 0 :=
  claim_C9 "=1+2" [[""]] [[""]] 0 0 rfl

theorem evaluateFunction_SUM_blank (G : Grid) : evaluateFunction "SUM" [""] G = "0" := by
  unfold evaluateFunction
  dsimp only
  rw [show List.foldl (processArg G G.length (G.headD []).length) ([], 0) [""] =
    (([], 0) : FuncState) from rfl]
  rfl

theorem evalFormulaFuel_SUM_empty (G : Grid) (r c : Int) (k : Nat) :
    evalFormulaFuel (k + 1) "=SUM()" G r c [] = some "0" := by
  rw [evalFormulaFuel]
  rw [if_neg (by simp)]
  dsimp only
  rw [if_neg (by decide), if_neg (by decide)]
  rw [show funcMatch (jsTrim (stripLeadingEq (jsTrim "=SUM()"))) = some ("SUM", "") from rfl]
  dsimp only
  rw [show splitOnChar ',' "" = [""] from rfl]
  rw [evaluateFunction_SUM_blank]

/-- C10: blank arguments are skipped and `=SUM()` returns `"0"`.  An argument
that is empty after trimming leaves `processArg`'s accumulator untouched; the
entry point splits `SUM()`'s empty argument span into the one-element list
`[""]`, so the zero-argument `#ERROR:ARGS` branch is unreachable and the
formula evaluates to `"0"` over every grid. -/
theorem claim_C10 :
    (∀ G mr mc st arg, (jsTrim arg).data.isEmpty = true →
      processArg G mr mc st arg = st) ∧
    (∀ (G : Grid) (r c : Int), evaluateFormula "=SUM()" G r c = "0") ∧
    splitOnChar ',' "" = [""] := by
  refine ⟨?_, ?_, rfl⟩
  · intro G mr mc st arg h
    unfold processArg
    dsimp only
    rw [if_pos h]
  · intro G r c
    unfold evaluateFormula
    obtain ⟨k, hk⟩ : ∃ k, evalBound "=SUM()" G = k + 1 :=
      ⟨evalBound "=SUM()" G - 1, by unfold evalBound; omega⟩
    rw [hk, evalFormulaFuel_SUM_empty]
    rfl

/-- Witness for C10's blank-argument conjunct at a whitespace argument. -/
theorem claim_C10_witness : processArg [] 0 0 ([], 0) "  " = ([], 0) :=
  claim_C10.1 [] 0 0 ([], 0) "  " rfl
